import Mathlib

/-!
Verification development for the `itx-cli` ticket-activity aggregation pipeline
and its HTML-to-plain-text normalizer (`src/commands/ticket.ts`).

The embedding works on `List Char`; `String` wrappers are provided where the
source operates on JavaScript strings.  Each definition is translated from the
TypeScript source; comments cite the source lines.
-/

namespace Itx

/-- Characters matched by JavaScript's regex `\s` and removed by `String.trim`
(ECMAScript WhiteSpace and LineTerminator code points). -/
def isJsWs (c : Char) : Bool :=
  c = ' ' || c = '\t' || c = '\n' || c = '\u000B' || c = '\u000C' || c = '\r' ||
  c = '\u00A0' || c = '\uFEFF' || c = '\u1680' ||
  (0x2000 ≤ c.toNat && c.toNat ≤ 0x200A) ||
  c = '\u2028' || c = '\u2029' || c = '\u202F' || c = '\u205F' || c = '\u3000'

/-- `.replace(/\r\n?/g, "\n")` \u2014 `htmlToText`, src/commands/ticket.ts:99. -/
def normNewlines : List Char → List Char
  | [] => []
  | '\r' :: '\n' :: rest => '\n' :: normNewlines rest
  | '\r' :: rest => '\n' :: normNewlines rest
  | c :: rest => c :: normNewlines rest

/-- One global literal-string replacement with JavaScript `String.replace`
semantics: the replacement text is emitted unscanned and scanning resumes
after the matched text.  The fuel only bounds the number of scan steps; each
step consumes at least one character, so `replaceLit` below always supplies
enough. -/
def replaceLitF (pat rep : List Char) : Nat → List Char → List Char
  | _, [] => []
  | 0, l => l
  | fuel + 1, c :: rest =>
    if pat.isPrefixOf (c :: rest) ∧ pat ≠ [] then
      rep ++ replaceLitF pat rep fuel (rest.drop (pat.length - 1))
    else
      c :: replaceLitF pat rep fuel rest

/-- Global literal replacement, `.replace(/pat/g, rep)` for a literal `pat`. -/
def replaceLit (pat rep : List Char) (l : List Char) : List Char :=
  replaceLitF pat rep l.length l

/-- Generic global-regex-replace driver.  `m` is an anchored matcher: given the
remaining input it either returns the length of a match starting there, or
fails, in which case the scan advances one character (JavaScript global-replace
semantics).  Every matcher used below only returns lengths `≥ 1`; a
zero-length match still consumes one character.  The fuel only bounds the
number of scan steps, each of which consumes at least one character. -/
def scanReplaceF (m : List Char → Option Nat) (rep : List Char) :
    Nat → List Char → List Char
  | _, [] => []
  | 0, l => l
  | fuel + 1, c :: rest =>
    match m (c :: rest) with
    | some n => rep ++ scanReplaceF m rep fuel (rest.drop (n - 1))
    | none => c :: scanReplaceF m rep fuel rest

/-- Global replacement by an anchored matcher. -/
def scanReplace (m : List Char → Option Nat) (rep : List Char)
    (l : List Char) : List Char :=
  scanReplaceF m rep l.length l

/-- Anchored case-insensitive match of a literal (lower-case) pattern,
returning its length (regex `/i` flag). -/
def matchCIlen (pat : List Char) (l : List Char) : Option Nat :=
  match pat, l with
  | [], _ => some 0
  | _ :: _, [] => none
  | p :: ps, c :: cs =>
    if c.toLower = p then (matchCIlen ps cs).map (· + 1) else none

/-- Length of the leading run of non-`>` characters (regex `[^>]*`). -/
def takeNonGtLen (l : List Char) : Nat := (l.takeWhile (fun c => c ≠ '>')).length

/-- Length of input up to and including the first (case-insensitive) occurrence
of `pat`; `none` if `pat` never occurs (lazy `[\s\S]*?pat`). -/
def findCIlen (pat : List Char) : List Char → Option Nat
  | [] => none
  | c :: rest =>
    match matchCIlen pat (c :: rest) with
    | some n => some n
    | none => (findCIlen pat rest).map (· + 1)

/-- Anchored matcher for `/<style[^>]*>[\s\S]*?<\/style>/i` (ticket.ts:100).
The leading `<` is matched structurally; `/i` only affects letters. -/
def styleM (l : List Char) : Option Nat :=
  match l with
  | '<' :: rest =>
    match matchCIlen ['s', 't', 'y', 'l', 'e'] rest with
    | none => none
    | some n1 =>
      let l1 := rest.drop n1
      let k := takeNonGtLen l1
      match l1.drop k with
      | '>' :: l3 =>
        match findCIlen ['<', '/', 's', 't', 'y', 'l', 'e', '>'] l3 with
        | some n2 => some (1 + n1 + k + 1 + n2)
        | none => none
      | _ => none
  | _ => none

/-- Anchored matcher for `/<br\s*\/?>/i` (ticket.ts:101). -/
def brM (l : List Char) : Option Nat :=
  match l with
  | '<' :: rest =>
    match matchCIlen ['b', 'r'] rest with
    | none => none
    | some n1 =>
      let l1 := rest.drop n1
      let k := (l1.takeWhile isJsWs).length
      match l1.drop k with
      | '/' :: '>' :: _ => some (1 + n1 + k + 2)
      | '>' :: _ => some (1 + n1 + k + 1)
      | _ => none
  | _ => none

/-- Anchored matcher for `/<\/p><p[^>]*>/i` (ticket.ts:102). -/
def ppM (l : List Char) : Option Nat :=
  match l with
  | '<' :: rest =>
    match matchCIlen ['/', 'p', '>', '<', 'p'] rest with
    | none => none
    | some n1 =>
      let l1 := rest.drop n1
      let k := takeNonGtLen l1
      match l1.drop k with
      | '>' :: _ => some (1 + n1 + k + 1)
      | _ => none
  | _ => none

/-- The block-level tag names of `/(p|div|tr|li|ul|ol|blockquote|h[1-6])/`,
`h[1-6]` expanded.  No name is a prefix of another and their first letters are
pairwise distinct, so the regex alternation order is immaterial. -/
def blockTagNames : List (List Char) :=
  [['p'], ['d', 'i', 'v'], ['t', 'r'], ['l', 'i'], ['u', 'l'], ['o', 'l'],
   ['b', 'l', 'o', 'c', 'k', 'q', 'u', 'o', 't', 'e'],
   ['h', '1'], ['h', '2'], ['h', '3'], ['h', '4'], ['h', '5'], ['h', '6']]

/-- First tag name (with its length) matching case-insensitively at the head. -/
def matchTagName (l : List Char) : Option Nat :=
  blockTagNames.foldl
    (fun acc name => match acc with
      | some n => some n
      | none => matchCIlen name l)
    none

/-- Anchored matcher for `/<\/?(p|div|tr|li|ul|ol|blockquote|h[1-6])[^>]*>/i`
(ticket.ts:103). -/
def blockM (l : List Char) : Option Nat :=
  match l with
  | '<' :: rest =>
    let (slash, body) : Nat × List Char :=
      match rest with
      | '/' :: rest2 => (1, rest2)
      | _ => (0, rest)
    match matchTagName body with
    | none => none
    | some n1 =>
      let l1 := body.drop n1
      let k := takeNonGtLen l1
      match l1.drop k with
      | '>' :: _ => some (1 + slash + n1 + k + 1)
      | _ => none
  | _ => none

/-- Anchored matcher for `/<[^>]+>/` (ticket.ts:104). -/
def tagM (l : List Char) : Option Nat :=
  match l with
  | '<' :: rest =>
    let k := takeNonGtLen rest
    if k = 0 then none
    else
      match rest.drop k with
      | '>' :: _ => some (k + 2)
      | _ => none
  | _ => none

/-- Anchored matcher for `/&#\d+;/` (ticket.ts:117). -/
def numM (l : List Char) : Option Nat :=
  match l with
  | '&' :: '#' :: rest =>
    let k := (rest.takeWhile Char.isDigit).length
    if k = 0 then none
    else
      match rest.drop k with
      | ';' :: _ => some (k + 3)
      | _ => none
  | _ => none

/-- The named-entity replacements of ticket.ts:105-116, in source order.
The apostrophe entity is the numeric form `&#39;`, decoded before the generic
numeric-reference drop. -/
def entityRules : List (List Char × List Char) :=
  [("&nbsp;".data, " ".data),
   ("&amp;".data, "&".data),
   ("&lt;".data, "<".data),
   ("&gt;".data, ">".data),
   ("&quot;".data, "\"".data),
   ("&#39;".data, "'".data),
   ("&ldquo;".data, "\u201C".data),
   ("&rdquo;".data, "\u201D".data),
   ("&lsquo;".data, "\u2018".data),
   ("&rsquo;".data, "\u2019".data),
   ("&mdash;".data, "\u2014".data),
   ("&ndash;".data, "\u2013".data)]

/-- Apply the twelve literal entity replacements in source order. -/
def applyEntities (l : List Char) : List Char :=
  entityRules.foldl (fun s pr => replaceLit pr.1 pr.2 s) l

/-- The characters of the class `[\uFEFF\u200B\u200C\u200D\u00AD\u00A0]`
(ticket.ts:118). -/
def isInvis (c : Char) : Bool :=
  c = '\uFEFF' || c = '\u200B' || c = '\u200C' || c = '\u200D' ||
  c = '\u00AD' || c = '\u00A0'

/-- `.replace(/[\uFEFF\u200B\u200C\u200D\u00AD\u00A0]/g, " ")` (ticket.ts:118). -/
def invisRule (l : List Char) : List Char :=
  l.map (fun c => if isInvis c then ' ' else c)

/-- Split on `'\n'`; always returns at least one (possibly empty) line. -/
def splitLines : List Char → List (List Char)
  | [] => [[]]
  | c :: rest =>
    if c = '\n' then [] :: splitLines rest
    else
      match splitLines rest with
      | [] => [[c]]
      | ln :: lns => (c :: ln) :: lns

/-- Rejoin lines with `'\n'`. -/
def unlines : List (List Char) → List Char
  | [] => []
  | [ln] => ln
  | ln :: lns => ln ++ '\n' :: unlines lns

/-- `^[ \t]+$` (multiline): a non-empty line consisting only of spaces/tabs. -/
def isBlankWsLine (ln : List Char) : Bool :=
  decide (ln ≠ []) && ln.all (fun c => c = ' ' || c = '\t')

/-- Replace a whitespace-only line by the empty line, as the multiline
replacement `^[ \t]+$ → ""` does. -/
def fixLine (ln : List Char) : List Char :=
  if isBlankWsLine ln then [] else ln

/-- `.replace(/^[ \t]+$/gm, "")` (ticket.ts:119). -/
def blankLines (l : List Char) : List Char :=
  unlines ((splitLines l).map fixLine)

/-- `.replace(/\n{3,}/g, "\n\n")` (ticket.ts:120): every maximal run of three
or more newlines becomes exactly two.  The fuel only bounds the number of
runs processed; each step consumes at least one character. -/
def collapseNlF : Nat → List Char → List Char
  | _, [] => []
  | 0, l => l
  | fuel + 1, c :: rest =>
    if c = '\n' then
      let n := (rest.takeWhile (fun c => c = '\n')).length
      let rest2 := rest.dropWhile (fun c => c = '\n')
      if n + 1 ≥ 3 then '\n' :: '\n' :: collapseNlF fuel rest2
      else '\n' :: List.replicate n '\n' ++ collapseNlF fuel rest2
    else c :: collapseNlF fuel rest

/-- Collapse every run of three or more newlines to exactly two. -/
def collapseNl (l : List Char) : List Char :=
  collapseNlF l.length l

/-- Remove trailing JavaScript-whitespace characters. -/
def trimRight : List Char → List Char
  | [] => []
  | c :: rest =>
    match trimRight rest with
    | [] => if isJsWs c then [] else [c]
    | r => c :: r

/-- JavaScript `String.prototype.trim` (ticket.ts:121). -/
def jsTrim (l : List Char) : List Char :=
  trimRight (l.dropWhile isJsWs)

/-- Stages 1-18 of `htmlToText` (ticket.ts:99-118): line endings, tag
stripping, entity decoding, numeric-reference removal and invisible-character
replacement, in source order. -/
def preStages (l : List Char) : List Char :=
  invisRule (scanReplace numM [] (applyEntities (
    scanReplace tagM [] (scanReplace blockM ['\n'] (scanReplace ppM ['\n'] (
      scanReplace brM ['\n'] (scanReplace styleM [] (normNewlines l))))))))

/-- The full `htmlToText` transformation chain (ticket.ts:97-122) on
character lists, stages applied in source order: `preStages`, then the
blank-line, newline-collapsing and trim rules (ticket.ts:119-121). -/
def htmlPipeline (l : List Char) : List Char :=
  jsTrim (collapseNl (blankLines (preStages l)))

/-- `htmlToText` (ticket.ts:97-122): strip HTML to plain text. -/
def htmlToText (s : String) : String :=
  String.mk (htmlPipeline s.data)

/-! ## Data model of the activity aggregator (ticket.ts:357-616) -/

/-- `LINK_TYPES.CONVERSATION` (ticket.ts:21). -/
def linkTypeConversation : Nat := 13

/-- `LINK_TYPES.CASE` (ticket.ts:22). -/
def linkTypeCase : Nat := 14

/-- `ACTIVITY_TYPES.EMAIL` (ticket.ts:30). -/
def activityTypeEmail : Nat := 11

/-- `ACTIVITY_TYPES.EMAIL_CONVERSATION` (ticket.ts:38). -/
def activityTypeEmailConversation : Nat := 21

/-- An activity record, with the fields the aggregator reads:
`eactId`, `activityType?.eatyId`, `creationTs`, and the call timestamps. -/
structure Activity where
  eactId : Nat
  eatyId : Option Nat
  creationTs : Option String
  startTs : Option String
  endTs : Option String

deriving DecidableEq, Repr

/-- A ticket comment (an element of `caseData.texts`). -/
structure Comment where
  text : String
  creationTs : Option String

deriving DecidableEq, Repr

/-- The part of the case record used by `ticket activities` step 1:
`eactId` and the optional comment list `texts` (ticket.ts:378-379). -/
structure CaseData where
  eactId : Nat
  texts : Option (List Comment)

deriving DecidableEq, Repr

/-- A link of the full case record: `type`, `to?.eactId` and `from.eactId`
(ticket.ts:394-401). -/
structure LinkRec where
  type : Option Nat
  toEactId : Option Nat
  fromEactId : Nat

deriving DecidableEq, Repr

/-- The full case record returned by the search endpoint: its link list,
possibly absent (ticket.ts:389-394). -/
structure FullCase where
  links : Option (List LinkRec)

deriving DecidableEq, Repr

/-- The API gateway as a deterministic oracle.  List-valued responses model
the JSON arrays of each endpoint (`Array.isArray(r) ? r[0] : r` becomes
`head?`).  `fetchEmailContent` may fail (`.error ()`), and a successful
response carries `some html` when the payload is a string and `none`
otherwise (`typeof html === "string"` check, ticket.ts:469). -/
structure ApiOracle where
  fetchCase : Nat → List CaseData
  searchCase : Nat → List FullCase
  searchActivities : List Nat → List Activity
  searchConversation : Nat → List Activity
  fetchEmailContent : Nat → Except Unit (Option String)

deriving instance DecidableEq for Except

/-- One API-gateway call, recorded for the call trace. -/
inductive ApiCall where
  | fetchCase (id : Nat)
  | searchCase (eactId : Nat)
  | searchActivities (eactIds : List Nat)
  | searchConversation (eactId : Nat)
  | fetchEmailContent (eactId : Nat)

deriving DecidableEq, Repr

/-- Aggregation failure: the requested ticket does not resolve to a record
(`Ticket #id not found.`, ticket.ts:373-376). -/
inductive AggError where
  | notFound (id : Nat)

deriving DecidableEq, Repr

/-- The aggregator's output: the sorted activity list, the email-body map,
and the ticket's comments. -/
structure AggResult where
  activities : List Activity
  emailBodies : List (Nat × String)
  comments : List Comment

deriving DecidableEq, Repr

/-- The conversation containers of a fetched batch (ticket.ts:416-420). -/
def emailConversationsOf (batch : List Activity) : List Activity :=
  batch.filter (fun a => a.eatyId == some activityTypeEmailConversation)

/-- One iteration of the conversation-expansion loop (ticket.ts:439-442):
remove every activity carrying the container's `eactId` from the working set
and append the activities fetched through the Conversation-type FROM link. -/
def expandStep (fetchConv : Nat → List Activity) (acc : List Activity)
    (conv : Activity) : List Activity :=
  (acc.filter (fun a => a.eactId != conv.eactId)) ++ fetchConv conv.eactId

/-- The conversation-expansion loop (ticket.ts:422-443): one `expandStep` for
each container found in the original batch (one level only; activities fetched
during expansion are never themselves expanded). -/
def expandConversations (fetchConv : Nat → List Activity)
    (batch : List Activity) : List Activity :=
  (emailConversationsOf batch).foldl (expandStep fetchConv) batch

/-- Sort key: `new Date((a.creationTs as string) ?? 0).getTime()`
(ticket.ts:448-449).  A missing timestamp yields the epoch (0); `dp` models
`Date` parsing, `none` standing for an unparseable string (`NaN`). -/
def tsKey (dp : String → Option Int) (a : Activity) : Option Int :=
  match a.creationTs with
  | none => some 0
  | some s => dp s

/-- The sort comparator `aTs - bTs` (ticket.ts:450).  When either key is
`NaN`, the comparator value is `NaN`, which `Array.prototype.sort` treats
as `+0`. -/
def tsCmp (dp : String → Option Int) (a b : Activity) : Int :=
  match tsKey dp a, tsKey dp b with
  | some x, some y => x - y
  | _, _ => 0

/-- Stable insertion into a sorted list: the new element goes after every
element that compares `≤ 0` against it. -/
def insertByTs (dp : String → Option Int) (x : Activity) :
    List Activity → List Activity
  | [] => [x]
  | y :: ys =>
    if tsCmp dp y x ≤ 0 then y :: insertByTs dp x ys else x :: y :: ys

/-- `activities.sort((a, b) => aTs - bTs)` (ticket.ts:447-451), modelled as a
stable insertion sort; for a consistent comparator this is the unique
sorted stable permutation that ECMAScript specifies. -/
def sortActivities (dp : String → Option Int) (l : List Activity) :
    List Activity :=
  l.foldl (fun acc x => insertByTs dp x acc) []

/-- Expansion followed by the timestamp sort: the activity list the
aggregator displays. -/
def finalActivities (fetchConv : Nat → List Activity)
    (dp : String → Option Int) (batch : List Activity) : List Activity :=
  sortActivities dp (expandConversations fetchConv batch)

/-- The Email activities of a list (ticket.ts:454-458). -/
def emailActivitiesOf (acts : List Activity) : List Activity :=
  acts.filter (fun a => a.eatyId == some activityTypeEmail)

/-- JavaScript `Map.set`: the key's previous binding is replaced. -/
def mapSet (m : List (Nat × String)) (k : Nat) (v : String) :
    List (Nat × String) :=
  (k, v) :: m.filter (fun p => p.1 != k)

/-- JavaScript `Map.get` as an association-list lookup. -/
def mapGet (m : List (Nat × String)) (k : Nat) : Option String :=
  (m.find? (fun p => p.1 == k)).map (·.2)

/-- One email-body fetch (ticket.ts:461-474): on success store
`htmlToText html` (or `""` for a non-string payload) under the email's
`eactId`; on failure (`catch`) store nothing. -/
def bodyStep (fetch : Nat → Except Unit (Option String))
    (m : List (Nat × String)) (e : Activity) : List (Nat × String) :=
  match fetch e.eactId with
  | .ok html => mapSet m e.eactId (match html with
      | some h => htmlToText h
      | none => "")
  | .error _ => m

/-- The email-body fetch loop (ticket.ts:459-475): one `bodyStep` per Email
activity; the fetches are independent and each writes to its own key, so the
settled result is this keyed map. -/
def emailBodiesMap (fetch : Nat → Except Unit (Option String))
    (acts : List Activity) : List (Nat × String) :=
  (emailActivitiesOf acts).foldl (bodyStep fetch) []

/-- The body text the display loop prints for an email (ticket.ts:527-531):
`const body = emailBodies.get(id); if (body) console.log(body)` prints
nothing when the entry is absent or empty. -/
def printedEmailBody (m : List (Nat × String)) (k : Nat) : String :=
  match mapGet m k with
  | some b => if b = "" then "" else b
  | none => ""

/-- Step 3 (ticket.ts:394-401): the identifiers of activities directly
linked to the ticket: sources of Case-type links whose target is the
ticket's own `eactId`. -/
def linkedActivityIdsOf (links : List LinkRec) (eactId : Nat) : List Nat :=
  (links.filter (fun l =>
    l.type == some linkTypeCase && l.toEactId == some eactId)).map
    (·.fromEactId)

/-- Steps 2-6 of the aggregation (ticket.ts:381-451): look up the full case,
extract its Case-type links, batch-fetch the linked activities, expand the
conversation containers and sort by creation timestamp.  Returns the sorted
activity list and the API calls performed after the initial case fetch.
When the linked-id set is empty the batch fetch and the expansion are skipped
(the working set stays `[]`, and sorting `[]` is `[]`). -/
def aggregateActivities (api : ApiOracle) (dp : String → Option Int)
    (cd : CaseData) : List Activity × List ApiCall :=
  let eid := cd.eactId
  let links := (((api.searchCase eid).head?).bind FullCase.links).getD []
  let ids := linkedActivityIdsOf links eid
  if ids.length > 0 then
    let acts0 := api.searchActivities ids
    (finalActivities api.searchConversation dp acts0,
      ApiCall.searchCase eid :: ApiCall.searchActivities ids ::
        (emailConversationsOf acts0).map
          (fun c => ApiCall.searchConversation c.eactId))
  else ([], [ApiCall.searchCase eid])

/-- The whole `ticket activities` aggregation (ticket.ts:362-484), with the
sequence of API calls it performs.  `dp` models `Date` parsing for the
timestamp sort. -/
def aggregate (api : ApiOracle) (dp : String → Option Int) (id : Nat) :
    Except AggError AggResult × List ApiCall :=
  match (api.fetchCase id).head? with
  | none => (.error (.notFound id), [.fetchCase id])
  | some cd =>
    let sorted := (aggregateActivities api dp cd).1
    (.ok { activities := sorted,
           emailBodies := emailBodiesMap api.fetchEmailContent sorted,
           comments := cd.texts.getD [] },
      ApiCall.fetchCase id :: (aggregateActivities api dp cd).2 ++
        (emailActivitiesOf sorted).map (fun e => ApiCall.fetchEmailContent e.eactId))

/-- The command-level outcome of `ticket activities <id>`: exit code, the
error message printed on failure, and the aggregation result on success
(ticket.ts:373-376, 612-615). -/
structure CmdOutcome where
  exitCode : Nat
  errorMessage : Option String
  result : Option AggResult

deriving DecidableEq, Repr

/-- Run the command: a not-found ticket prints `Ticket #id not found.` and
exits with status 1; otherwise the aggregation result is rendered and the
process exits normally. -/
def runTicketActivities (api : ApiOracle) (dp : String → Option Int)
    (id : Nat) : CmdOutcome :=
  match (aggregate api dp id).1 with
  | .error (.notFound i) =>
    { exitCode := 1,
      errorMessage := some ("Ticket #" ++ toString i ++ " not found."),
      result := none }
  | .ok r => { exitCode := 0, errorMessage := none, result := some r }

/-- `formatDuration` (ticket.ts:125-129): `m = Math.floor(seconds / 60)`,
`s = seconds % 60`, rendered `"Xm Ys"` when `m > 0`, else `"Ys"`. -/
def formatDuration (seconds : Int) : String :=
  let m := Int.fdiv seconds 60
  let s := Int.tmod seconds 60
  if m > 0 then toString m ++ "m " ++ toString s ++ "s"
  else toString s ++ "s"

/-- `Math.round(x / 1000)` for an integer millisecond difference `x`:
JavaScript rounds half toward positive infinity. -/
def jsRoundMsToSec (d : Int) : Int := Int.fdiv (d + 500) 1000

/-- The call-duration line (ticket.ts:550-558): present only when both
`startTs` and `endTs` are truthy; the duration is the rounded whole-second
difference of the parsed timestamps.  (When a timestamp does not parse the
JavaScript arithmetic produces `NaN` text; that degenerate path is outside
the claims and modelled as `none`.) -/
def durationDisplay (dp : String → Option Int) (a : Activity) :
    Option String :=
  match a.startTs, a.endTs with
  | some s, some e =>
    if s ≠ "" ∧ e ≠ "" then
      match dp s, dp e with
      | some ps, some pe => some (formatDuration (jsRoundMsToSec (pe - ps)))
      | _, _ => none
    else none
  | _, _ => none

/-! ## Sort keys -/

/-- The numeric sort key with `NaN` defaulted to 0 (only meaningful when the
key is known to be present). -/
def tsKeyD (dp : String → Option Int) (a : Activity) : Int :=
  (tsKey dp a).getD 0

/-- The sort key the claim asserts: a missing or unparseable creation
timestamp counts as the epoch.  (Stated from the claim's wording, for
comparison with the implemented comparator.) -/
def specEpochKey (dp : String → Option Int) (a : Activity) : Int :=
  match a.creationTs with
  | none => 0
  | some s => (dp s).getD 0

/-! ## Sample oracles for witnesses and counterexamples -/

/-- A `Date` parser that accepts nothing. -/
def dpNone : String → Option Int := fun _ => none

/-- An API oracle whose every endpoint returns an empty response. -/
def apiEmpty : ApiOracle :=
  { fetchCase := fun _ => []
    searchCase := fun _ => []
    searchActivities := fun _ => []
    searchConversation := fun _ => []
    fetchEmailContent := fun _ => .error () }

/-- A parser that accepts exactly one date string. -/
def dpSample : String → Option Int :=
  fun s => if s = "2020-01-01T00:00:00Z" then some 1577836800000 else none

/-- An activity with a parseable creation timestamp. -/
def actParsed : Activity :=
  { eactId := 1, eatyId := some 8, creationTs := some "2020-01-01T00:00:00Z",
    startTs := none, endTs := none }

/-- An activity whose creation timestamp does not parse (`NaN` key). -/
def actGarbled : Activity :=
  { eactId := 2, eatyId := some 8, creationTs := some "not a date",
    startTs := none, endTs := none }

/-- A ticket whose full-case search comes back empty. -/
def caseNoLinks : CaseData :=
  { eactId := 100, texts := some [{ text := "Looking into this", creationTs := none }] }

/-- Oracle for the C10 witness: the ticket resolves, the search does not. -/
def apiNoLinks : ApiOracle :=
  { fetchCase := fun i => if i = 5 then [caseNoLinks] else []
    searchCase := fun _ => []
    searchActivities := fun _ => []
    searchConversation := fun _ => []
    fetchEmailContent := fun _ => .error () }

/-- A parser that knows the two call timestamps of the witness, five minutes
apart. -/
def dpCallTs : String → Option Int := fun t =>
  if t = "2024-01-01T10:00:00Z" then some 1704103200000
  else if t = "2024-01-01T10:05:00Z" then some 1704103500000
  else none

/-- The witness Call activity: start and end five minutes apart. -/
def callAct : Activity :=
  { eactId := 2000, eatyId := some 4,
    creationTs := some "2024-01-01T10:00:00Z",
    startTs := some "2024-01-01T10:00:00Z",
    endTs := some "2024-01-01T10:05:00Z" }

/-- A link record attaching activity 2000 to case 100. -/
def linkToCase : LinkRec :=
  { type := some linkTypeCase, toEactId := some 100, fromEactId := 2000 }

/-- The witness conversation container (type Email-Conversation). -/
def convContainer : Activity :=
  { eactId := 5000, eatyId := some activityTypeEmailConversation,
    creationTs := none, startTs := none, endTs := none }

/-- First individual email of the witness conversation. -/
def emailOne : Activity :=
  { eactId := 5001, eatyId := some activityTypeEmail,
    creationTs := none, startTs := none, endTs := none }

/-- Second individual email of the witness conversation. -/
def emailTwo : Activity :=
  { eactId := 5002, eatyId := some activityTypeEmail,
    creationTs := none, startTs := none, endTs := none }

/-- The witness conversation fetch: container 5000 resolves to two emails. -/
def fetchConvSample : Nat → List Activity :=
  fun i => if i = 5000 then [emailOne, emailTwo] else []

/-- Third individual email for the C2 witness. -/
def emailThree : Activity :=
  { eactId := 5003, eatyId := some activityTypeEmail,
    creationTs := none, startTs := none, endTs := none }

/-- The case record of the body-enrichment witness ticket. -/
def caseEmails : CaseData := { eactId := 100, texts := none }

/-- Oracle for the C2 witness: a ticket with three linked emails; the body
fetch succeeds for 5001 and 5003 and rejects for 5002. -/
def apiBodies : ApiOracle :=
  { fetchCase := fun i => if i = 7 then [caseEmails] else []
    searchCase := fun i =>
      if i = 100 then
        [{ links := some
            [{ type := some linkTypeCase, toEactId := some 100, fromEactId := 5001 },
             { type := some linkTypeCase, toEactId := some 100, fromEactId := 5002 },
             { type := some linkTypeCase, toEactId := some 100, fromEactId := 5003 }] }]
      else []
    searchActivities := fun ids =>
      if ids = [5001, 5002, 5003] then [emailOne, emailTwo, emailThree] else []
    searchConversation := fun _ => []
    fetchEmailContent := fun i =>
      if i = 5001 then .ok (some "<p>Hi</p>")
      else if i = 5003 then .ok (some "Yo")
      else .error () }

/-- The aggregation result of the C2 witness run: all three emails kept, the
rejected one (5002) with no body entry. -/
def resBodies : AggResult :=
  { activities := [emailOne, emailTwo, emailThree],
    emailBodies := [(5003, "Yo"), (5001, "Hi")],
    comments := [] }

/-- The API calls of the C2 witness run. -/
def trBodies : List ApiCall :=
  [.fetchCase 7, .searchCase 100, .searchActivities [5001, 5002, 5003],
   .fetchEmailContent 5001, .fetchEmailContent 5002, .fetchEmailContent 5003]

/-- A line is acceptable to the blank-line rule if it is empty or contains a
character other than space and tab. -/
def lineOk (ln : List Char) : Prop :=
  ln = [] ∨ ∃ c ∈ ln, ¬(c = ' ' ∨ c = '\t')

/-- Every line of the string is acceptable to the blank-line rule. -/
def linesOk (l : List Char) : Prop :=
  ∀ ln ∈ splitLines l, lineOk ln

/-- Whether three consecutive newlines occur in the string. -/
def hasTriple : List Char → Bool
  | [] => false
  | [_] => false
  | [_, _] => false
  | a :: b :: c :: rest =>
    (a = '\n' && b = '\n' && c = '\n') || hasTriple (b :: c :: rest)

/-! ## Theorems -/

/-- The length of `dropWhile` never exceeds the input length. -/
theorem dropWhile_length_le (p : Char → Bool) (l : List Char) :
    (l.dropWhile p).length ≤ l.length := by
  induction l with
  | nil => simp [List.dropWhile]
  | cons c rest ih =>
    simp only [List.dropWhile]
    split
    · exact Nat.le_trans ih (Nat.le_succ _)
    · exact Nat.le_refl _

/-- Insertion produces a permutation of consing. -/
theorem insertByTs_perm (dp : String → Option Int) (x : Activity)
    (l : List Activity) : (insertByTs dp x l).Perm (x :: l) := by
  induction l with
  | nil => simp [insertByTs]
  | cons y ys ih =>
    simp only [insertByTs]
    split
    · exact (ih.cons y).trans (List.Perm.swap x y ys)
    · exact List.Perm.refl _

/-- The fold of insertions permutes the accumulator and the input. -/
theorem sortActivities_fold_perm (dp : String → Option Int) :
    ∀ (l acc : List Activity),
      (l.foldl (fun acc x => insertByTs dp x acc) acc).Perm (acc ++ l) := by
  intro l
  induction l with
  | nil => intro acc; simp
  | cons x xs ih =>
    intro acc
    have h1 := ih (insertByTs dp x acc)
    have h2 : (insertByTs dp x acc ++ xs).Perm (acc ++ x :: xs) :=
      ((insertByTs_perm dp x acc).append_right xs).trans List.perm_middle.symm
    exact (h1.trans h2)

/-- The sort is a permutation of its input. -/
theorem sortActivities_perm (dp : String → Option Int) (l : List Activity) :
    (sortActivities dp l).Perm l := by
  have h := sortActivities_fold_perm dp l []
  simpa [sortActivities] using h

/-- Sorting preserves membership. -/
theorem mem_sortActivities (dp : String → Option Int) (a : Activity)
    (l : List Activity) : a ∈ sortActivities dp l ↔ a ∈ l :=
  (sortActivities_perm dp l).mem_iff

/-- Membership in an insertion. -/
theorem mem_insertByTs (dp : String → Option Int) (z x : Activity)
    (l : List Activity) : z ∈ insertByTs dp x l ↔ z = x ∨ z ∈ l := by
  rw [(insertByTs_perm dp x l).mem_iff, List.mem_cons]

/-- For activities whose keys are not `NaN`, the comparator agrees with the
order of the numeric keys. -/
theorem tsCmp_le_iff (dp : String → Option Int) (a b : Activity)
    (ha : (tsKey dp a).isSome) (hb : (tsKey dp b).isSome) :
    tsCmp dp a b ≤ 0 ↔ tsKeyD dp a ≤ tsKeyD dp b := by
  unfold tsCmp tsKeyD
  rcases hx : tsKey dp a with _ | x <;> rcases hy : tsKey dp b with _ | y <;>
    simp_all

/-- Inserting into a key-sorted list keeps it key-sorted, provided no key
is `NaN`. -/
theorem insertByTs_pairwise (dp : String → Option Int) (x : Activity)
    (acc : List Activity) (hx : (tsKey dp x).isSome)
    (hacc : ∀ y ∈ acc, (tsKey dp y).isSome)
    (hp : acc.Pairwise (fun a b => tsKeyD dp a ≤ tsKeyD dp b)) :
    (insertByTs dp x acc).Pairwise (fun a b => tsKeyD dp a ≤ tsKeyD dp b) := by
  induction acc with
  | nil => simp [insertByTs]
  | cons y ys ih =>
    rw [List.pairwise_cons] at hp
    obtain ⟨hyz, hys⟩ := hp
    have hy : (tsKey dp y).isSome := hacc y (by simp)
    simp only [insertByTs]
    split
    case isTrue hle =>
      rw [List.pairwise_cons]
      refine ⟨?_, ih (fun w hw => hacc w (by simp [hw])) hys⟩
      intro z hz
      rcases (mem_insertByTs dp z x ys).1 hz with rfl | hz2
      · exact (tsCmp_le_iff dp y z hy hx).1 hle
      · exact hyz z hz2
    case isFalse hgt =>
      have hxy : tsKeyD dp x ≤ tsKeyD dp y := by
        by_contra hc
        exact hgt ((tsCmp_le_iff dp y x hy hx).2 (by omega))
      rw [List.pairwise_cons]
      refine ⟨?_, List.pairwise_cons.2 ⟨hyz, hys⟩⟩
      intro z hz
      rcases List.mem_cons.1 hz with rfl | hz2
      · exact hxy
      · exact le_trans hxy (hyz z hz2)

/-- The whole sort is key-sorted when no key is `NaN`. -/
theorem sortActivities_pairwise (dp : String → Option Int) :
    ∀ (l acc : List Activity), (∀ a ∈ l, (tsKey dp a).isSome) →
      (∀ a ∈ acc, (tsKey dp a).isSome) →
      acc.Pairwise (fun a b => tsKeyD dp a ≤ tsKeyD dp b) →
      (l.foldl (fun acc x => insertByTs dp x acc) acc).Pairwise
        (fun a b => tsKeyD dp a ≤ tsKeyD dp b) := by
  intro l
  induction l with
  | nil => intro acc _ _ hp; simpa
  | cons x xs ih =>
    intro acc hl hacc hp
    have hx : (tsKey dp x).isSome := hl x (by simp)
    refine ih (insertByTs dp x acc) (fun a ha => hl a (by simp [ha])) ?_ ?_
    · intro a ha
      rcases (mem_insertByTs dp a x acc).1 ha with rfl | h2
      · exact hx
      · exact hacc a h2
    · exact insertByTs_pairwise dp x acc hx hacc hp

/-! ## Claim C3 -/

/-- C3, as stated, is false: an activity with an *unparseable* timestamp does
not sort as the epoch.  Its comparator value against every other element is
`NaN`, treated as `+0`, so the stable sort leaves it in place: sorting
`[actParsed, actGarbled]` keeps the unparseable activity last, behind a
1577836800000-keyed one, violating the claimed epoch-first order. -/
theorem c3_counterexample :
    ¬ ∀ (dp : String → Option Int) (l : List Activity),
        (sortActivities dp l).Pairwise
          (fun a b => specEpochKey dp a ≤ specEpochKey dp b) := by
  intro h
  exact absurd (h dpSample [actParsed, actGarbled]) (by decide)

/-- C3 (amended): after conversation expansion the activity list is sorted
ascending by parsed creation timestamp provided every timestamp is missing or
parseable; a missing timestamp is keyed as the epoch (0) and hence sorts
before every positively-keyed activity.  An unparseable timestamp, by
contrast, compares equal to everything and keeps its relative position
(see the counterexample). -/
theorem c3_sorted_after_expansion (fetchConv : Nat → List Activity)
    (dp : String → Option Int) (batch : List Activity)
    (h : ∀ a ∈ expandConversations fetchConv batch, (tsKey dp a).isSome) :
    (finalActivities fetchConv dp batch).Perm
        (expandConversations fetchConv batch) ∧
    (finalActivities fetchConv dp batch).Pairwise
        (fun a b => tsKeyD dp a ≤ tsKeyD dp b) ∧
    (∀ a, a.creationTs = none → tsKey dp a = some 0 ∧ tsKeyD dp a = 0) := by
  refine ⟨sortActivities_perm dp _, ?_, ?_⟩
  · have hp := sortActivities_pairwise dp (expandConversations fetchConv batch)
      [] h (by simp) (by simp)
    simpa [finalActivities, sortActivities] using hp
  · intro a ha
    simp [tsKey, tsKeyD, ha]

/-- Concrete run of the amended C3 statement: two parseable-or-missing
activities, the missing-timestamp one keyed 0 and sorted first. -/
theorem c3_sorted_witness :
    (∀ a ∈ expandConversations (fun _ => []) [actParsed,
        { eactId := 3, eatyId := some 8, creationTs := none,
          startTs := none, endTs := none }],
      (tsKey dpSample a).isSome) ∧
    (finalActivities (fun _ => []) dpSample [actParsed,
        { eactId := 3, eatyId := some 8, creationTs := none,
          startTs := none, endTs := none }]).Pairwise
      (fun a b => tsKeyD dpSample a ≤ tsKeyD dpSample b) :=
  ⟨by decide,
   (c3_sorted_after_expansion (fun _ => []) dpSample _ (by decide)).2.1⟩

/-! ## Claim C4 -/

/-- C4: when the initial fetch returns no matching ticket, the aggregation
fails with `notFound` carrying the requested identifier, no API call beyond
the initial fetch is performed, and the command exits with status 1,
printing the identifier back. -/
theorem c4_not_found (api : ApiOracle) (dp : String → Option Int) (id : Nat)
    (h : api.fetchCase id = []) :
    aggregate api dp id = (.error (.notFound id), [.fetchCase id]) ∧
    runTicketActivities api dp id =
      { exitCode := 1,
        errorMessage := some ("Ticket #" ++ toString id ++ " not found."),
        result := none } ∧
    (runTicketActivities api dp id).exitCode ≠ 0 := by
  have h1 : aggregate api dp id = (.error (.notFound id), [.fetchCase id]) := by
    unfold aggregate
    rw [h]
    rfl
  refine ⟨h1, ?_, ?_⟩ <;> simp [runTicketActivities, h1]

/-- Concrete run of C4 on an oracle that knows no tickets. -/
theorem c4_witness :
    aggregate apiEmpty dpNone 42 = (.error (.notFound 42), [.fetchCase 42]) ∧
    runTicketActivities apiEmpty dpNone 42 =
      { exitCode := 1,
        errorMessage := some ("Ticket #" ++ toString 42 ++ " not found."),
        result := none } ∧
    (runTicketActivities apiEmpty dpNone 42).exitCode ≠ 0 :=
  c4_not_found apiEmpty dpNone 42 rfl

/-! ## Claim C10 -/

/-- C10: when the full-case search returns no record, or a record without a
link list, the aggregation still succeeds, with an empty activity list and
the ticket's comments, performing no further calls. -/
theorem c10_missing_fullcase (api : ApiOracle) (dp : String → Option Int)
    (id : Nat) (cd : CaseData) (rest : List CaseData)
    (h1 : api.fetchCase id = cd :: rest)
    (h2 : (api.searchCase cd.eactId).head? = none ∨
      ∃ fc rest2, api.searchCase cd.eactId = fc :: rest2 ∧ fc.links = none) :
    aggregate api dp id =
      (.ok { activities := [], emailBodies := [],
             comments := cd.texts.getD [] },
       [.fetchCase id, .searchCase cd.eactId]) := by
  have hAct : aggregateActivities api dp cd = ([], [ApiCall.searchCase cd.eactId]) := by
    unfold aggregateActivities
    rcases h2 with h2 | ⟨fc, rest2, hsc, hlinks⟩
    · simp [h2, linkedActivityIdsOf]
    · simp [hsc, hlinks, linkedActivityIdsOf]
  unfold aggregate
  rw [h1]
  simp [hAct, emailBodiesMap, emailActivitiesOf, sortActivities]

/-- Concrete run of C10. -/
theorem c10_witness :
    aggregate apiNoLinks dpNone 5 =
      (.ok { activities := [], emailBodies := [],
             comments := caseNoLinks.texts.getD [] },
       [.fetchCase 5, .searchCase caseNoLinks.eactId]) :=
  c10_missing_fullcase apiNoLinks dpNone 5 caseNoLinks [] (by decide) (Or.inl rfl)

/-! ## Claim C9 -/

/-- C9: for a Call activity with both timestamps present and parseable, the
displayed duration is the rounded whole-second difference of the end and
start timestamps; writing it as minutes and seconds
(`sec = 60 * m + s`, `0 ≤ s < 60`), it renders `"Xm Ys"` when `m > 0` and
`"Ys"` otherwise. -/
theorem c9_call_duration (dp : String → Option Int) (a : Activity)
    (s e : String) (ps pe : Int)
    (hs : a.startTs = some s) (he : a.endTs = some e)
    (hs0 : s ≠ "") (he0 : e ≠ "")
    (hps : dp s = some ps) (hpe : dp e = some pe) :
    durationDisplay dp a = some (formatDuration (jsRoundMsToSec (pe - ps))) ∧
    (∀ sec : Int, 0 ≤ sec →
      sec = 60 * Int.fdiv sec 60 + Int.tmod sec 60 ∧
      0 ≤ Int.tmod sec 60 ∧ Int.tmod sec 60 < 60 ∧
      (0 < Int.fdiv sec 60 →
        formatDuration sec =
          toString (Int.fdiv sec 60) ++ "m " ++ toString (Int.tmod sec 60) ++ "s") ∧
      (Int.fdiv sec 60 ≤ 0 →
        formatDuration sec = toString (Int.tmod sec 60) ++ "s")) := by
  constructor
  · simp [durationDisplay, hs, he, hs0, he0, hps, hpe]
  · intro sec hsec
    have hfd : Int.fdiv sec 60 = sec / 60 := Int.fdiv_eq_ediv sec (by norm_num)
    have htm : Int.tmod sec 60 = sec % 60 := Int.tmod_eq_emod hsec (by norm_num)
    refine ⟨?_, ?_, ?_, ?_, ?_⟩
    · rw [hfd, htm]; omega
    · rw [htm]; exact Int.emod_nonneg sec (by norm_num)
    · rw [htm]; exact Int.emod_lt_of_pos sec (by norm_num)
    · intro hm; unfold formatDuration; rw [if_pos hm]
    · intro hm; unfold formatDuration; rw [if_neg (by omega)]

/-- Concrete run of C9: a five-minute call displays `"5m 0s"`. -/
theorem c9_witness : durationDisplay dpCallTs callAct = some "5m 0s" := by
  have h := c9_call_duration dpCallTs callAct
    "2024-01-01T10:00:00Z" "2024-01-01T10:05:00Z" 1704103200000 1704103500000
    rfl rfl (by decide) (by decide) (by decide) (by decide)
  rw [h.1]
  decide

/-! ## Claim C8 -/

/-- C8: (a) an identifier is a directly linked activity identifier exactly
when it is the source `eactId` of a Case-type link whose target is the
ticket's own `eactId`; (b) when that set is empty, the activity batch fetch
and conversation expansion are skipped and the aggregation returns an
empty activity list with the ticket's comments. -/
theorem c8_linked_ids :
    (∀ (links : List LinkRec) (eid x : Nat),
      x ∈ linkedActivityIdsOf links eid ↔
        ∃ l ∈ links, l.type = some linkTypeCase ∧ l.toEactId = some eid ∧
          l.fromEactId = x) ∧
    (∀ (api : ApiOracle) (dp : String → Option Int) (id : Nat)
        (cd : CaseData) (rest : List CaseData),
      api.fetchCase id = cd :: rest →
      linkedActivityIdsOf
          ((((api.searchCase cd.eactId).head?).bind FullCase.links).getD [])
          cd.eactId = [] →
      aggregate api dp id =
        (.ok { activities := [], emailBodies := [],
               comments := cd.texts.getD [] },
         [.fetchCase id, .searchCase cd.eactId])) := by
  constructor
  · intro links eid x
    simp only [linkedActivityIdsOf, List.mem_map, List.mem_filter]
    constructor
    · rintro ⟨l, ⟨hl, hcond⟩, hfrom⟩
      rw [Bool.and_eq_true, beq_iff_eq, beq_iff_eq] at hcond
      exact ⟨l, hl, hcond.1, hcond.2, hfrom⟩
    · rintro ⟨l, hl, htype, hto, hfrom⟩
      refine ⟨l, ⟨hl, ?_⟩, hfrom⟩
      rw [Bool.and_eq_true, beq_iff_eq, beq_iff_eq]
      exact ⟨htype, hto⟩
  · intro api dp id cd rest h1 h2
    have hAct : aggregateActivities api dp cd =
        ([], [ApiCall.searchCase cd.eactId]) := by
      unfold aggregateActivities
      simp [h2]
    unfold aggregate
    rw [h1]
    simp [hAct, emailBodiesMap, emailActivitiesOf, sortActivities]

/-- Concrete run of C8: the Case-link characterization on a two-link list
(one matching, one of Conversation type), and the skip behaviour on a
ticket with a full case but no matching Case links. -/
theorem c8_witness :
    (2000 ∈ linkedActivityIdsOf
        [linkToCase,
         { type := some linkTypeConversation, toEactId := some 100,
           fromEactId := 3000 }] 100 ↔
      ∃ l ∈ [linkToCase,
         { type := some linkTypeConversation, toEactId := some 100,
           fromEactId := 3000 }],
        l.type = some linkTypeCase ∧ l.toEactId = some 100 ∧
          l.fromEactId = 2000) ∧
    aggregate
      { fetchCase := fun i => if i = 5 then [caseNoLinks] else []
        searchCase := fun i =>
          if i = 100 then
            [{ links := some [{ type := some linkTypeConversation,
                                toEactId := some 100, fromEactId := 3000 }] }]
          else []
        searchActivities := fun _ => []
        searchConversation := fun _ => []
        fetchEmailContent := fun _ => .error () } dpNone 5 =
      (.ok { activities := [], emailBodies := [],
             comments := caseNoLinks.texts.getD [] },
       [.fetchCase 5, .searchCase caseNoLinks.eactId]) :=
  ⟨c8_linked_ids.1 _ 100 2000,
   c8_linked_ids.2 _ dpNone 5 caseNoLinks [] (by decide) (by decide)⟩

/-! ## Claim C1 -/

/-- After the expansion fold, no Email-Conversation activity remains,
provided the expansion fetches return none and every container in the
working set is still scheduled for removal. -/
theorem expand_fold_no_conv (fetchConv : Nat → List Activity) :
    ∀ (convs acc : List Activity),
      (∀ c ∈ convs, ∀ a ∈ fetchConv c.eactId,
        a.eatyId ≠ some activityTypeEmailConversation) →
      (∀ a ∈ acc, a.eatyId = some activityTypeEmailConversation →
        ∃ c ∈ convs, a.eactId = c.eactId) →
      ∀ a ∈ convs.foldl (expandStep fetchConv) acc,
        a.eatyId ≠ some activityTypeEmailConversation := by
  intro convs
  induction convs with
  | nil =>
    intro acc _ hacc a ha hconv
    obtain ⟨c, hc, _⟩ := hacc a ha hconv
    exact absurd hc (List.not_mem_nil c)
  | cons c0 cs ih =>
    intro acc hfetch hacc a ha
    rw [List.foldl_cons] at ha
    refine ih (expandStep fetchConv acc c0)
      (fun c hc => hfetch c (by simp [hc])) ?_ a ha
    intro b hb hbconv
    rcases List.mem_append.1 hb with hb1 | hb2
    · rw [List.mem_filter] at hb1
      obtain ⟨hbacc, hbne⟩ := hb1
      obtain ⟨c, hc, hceq⟩ := hacc b hbacc hbconv
      rcases List.mem_cons.1 hc with rfl | hcs
      · exact absurd hceq (by simpa using hbne)
      · exact ⟨c, hcs, hceq⟩
    · exact absurd hbconv (hfetch c0 (by simp) b hb2)

/-- An element of the working set whose `eactId` matches no container
survives the expansion fold. -/
theorem expand_fold_mem_preserved (fetchConv : Nat → List Activity) :
    ∀ (convs acc : List Activity) (x : Activity), x ∈ acc →
      (∀ c ∈ convs, x.eactId ≠ c.eactId) →
      x ∈ convs.foldl (expandStep fetchConv) acc := by
  intro convs
  induction convs with
  | nil => intro acc x hx _; simpa using hx
  | cons c0 cs ih =>
    intro acc x hx hne
    rw [List.foldl_cons]
    refine ih _ x ?_ (fun c hc => hne c (by simp [hc]))
    refine List.mem_append.2 (Or.inl (List.mem_filter.2 ⟨hx, ?_⟩))
    simpa using hne c0 (by simp)

/-- Every activity fetched for a container lands in the fold's result,
provided its `eactId` matches no container. -/
theorem expand_fold_fetch_mem (fetchConv : Nat → List Activity) :
    ∀ (convs acc : List Activity) (c : Activity), c ∈ convs →
      (∀ a ∈ fetchConv c.eactId, ∀ c2 ∈ convs, a.eactId ≠ c2.eactId) →
      ∀ a ∈ fetchConv c.eactId, a ∈ convs.foldl (expandStep fetchConv) acc := by
  intro convs
  induction convs with
  | nil => intro acc c hc; exact absurd hc (List.not_mem_nil c)
  | cons c0 cs ih =>
    intro acc c hc hno a ha
    rw [List.foldl_cons]
    rcases List.mem_cons.1 hc with rfl | hcs
    · refine expand_fold_mem_preserved fetchConv cs (expandStep fetchConv acc c) a
        (List.mem_append.2 (Or.inr ha)) ?_
      exact fun c2 hc2 => hno a ha c2 (by simp [hc2])
    · exact ih (expandStep fetchConv acc c0) c hcs
        (fun b hb c2 hc2 => hno b hb c2 (by simp [hc2])) a ha

/-- C1: when the per-container fetches return only non-container activities
whose identifiers collide with no container, the final activity list
contains no Email-Conversation activity; every fetched individual email is
in it; and every non-container activity of the original batch whose
identifier matches no container is kept.  One level only: the containers
iterated over are those of the original batch. -/
theorem c1_conversation_expansion (fetchConv : Nat → List Activity)
    (dp : String → Option Int) (batch : List Activity)
    (h1 : ∀ c ∈ emailConversationsOf batch, ∀ a ∈ fetchConv c.eactId,
      a.eatyId ≠ some activityTypeEmailConversation)
    (h2 : ∀ c ∈ emailConversationsOf batch, ∀ a ∈ fetchConv c.eactId,
      ∀ c2 ∈ emailConversationsOf batch, a.eactId ≠ c2.eactId) :
    (∀ a ∈ finalActivities fetchConv dp batch,
      a.eatyId ≠ some activityTypeEmailConversation) ∧
    (∀ c ∈ emailConversationsOf batch, ∀ a ∈ fetchConv c.eactId,
      a ∈ finalActivities fetchConv dp batch) ∧
    (∀ a ∈ batch, a.eatyId ≠ some activityTypeEmailConversation →
      (∀ c ∈ emailConversationsOf batch, a.eactId ≠ c.eactId) →
      a ∈ finalActivities fetchConv dp batch) := by
  have hmem : ∀ a, a ∈ finalActivities fetchConv dp batch ↔
      a ∈ expandConversations fetchConv batch := by
    intro a
    unfold finalActivities
    exact mem_sortActivities dp a _
  refine ⟨?_, ?_, ?_⟩
  · intro a ha
    refine expand_fold_no_conv fetchConv (emailConversationsOf batch) batch h1
      ?_ a ((hmem a).1 ha)
    intro b hb hbc
    refine ⟨b, List.mem_filter.2 ⟨hb, ?_⟩, rfl⟩
    simp [hbc]
  · intro c hc a ha
    exact (hmem a).2 (expand_fold_fetch_mem fetchConv _ batch c hc
      (fun b hb => h2 c hc b hb) a ha)
  · intro a ha hconv hne
    exact (hmem a).2 (expand_fold_mem_preserved fetchConv _ batch a ha hne)

/-- Concrete run of C1: one container expanding to two emails; the final
list is exactly the two emails, without the container. -/
theorem c1_witness :
    (∀ a ∈ finalActivities fetchConvSample dpNone [convContainer],
      a.eatyId ≠ some activityTypeEmailConversation) ∧
    emailOne ∈ finalActivities fetchConvSample dpNone [convContainer] ∧
    finalActivities fetchConvSample dpNone [convContainer] =
      [emailOne, emailTwo] := by
  have h := c1_conversation_expansion fetchConvSample dpNone [convContainer]
    (by decide) (by decide)
  exact ⟨h.1, h.2.1 convContainer (by decide) emailOne (by decide), by decide⟩

/-! ## Claim C2 -/

/-- `find?` by key ignores a filter that removes a different key. -/
theorem find?_filter_ne (j k : Nat) (h : j ≠ k) (m : List (Nat × String)) :
    (m.filter (fun p => p.1 != j)).find? (fun p => p.1 == k) =
    m.find? (fun p => p.1 == k) := by
  induction m with
  | nil => rfl
  | cons p rest ih =>
    rw [List.filter_cons]
    by_cases hpj : p.1 = j
    · rw [if_neg (by simp [hpj]), ih, List.find?_cons_of_neg]
      simp [hpj]
      omega
    · rw [if_pos (by simp [hpj])]
      by_cases hpk : p.1 = k
      · rw [List.find?_cons_of_pos _ (by simpa using hpk),
          List.find?_cons_of_pos _ (by simpa using hpk)]
      · rw [List.find?_cons_of_neg _ (by simpa using hpk),
          List.find?_cons_of_neg _ (by simpa using hpk), ih]

/-- Setting another key does not change a lookup. -/
theorem mapGet_set_ne (m : List (Nat × String)) (j k : Nat) (v : String)
    (h : j ≠ k) : mapGet (mapSet m j v) k = mapGet m k := by
  unfold mapGet mapSet
  rw [List.find?_cons_of_neg _ (by simpa using h), find?_filter_ne j k h]

/-- A key whose fetch fails is never written by the body-fetch fold. -/
theorem bodyFold_error (fetch : Nat → Except Unit (Option String)) (k : Nat)
    (hk : fetch k = .error ()) :
    ∀ (es : List Activity) (m : List (Nat × String)), mapGet m k = none →
      mapGet (es.foldl (bodyStep fetch) m) k = none := by
  intro es
  induction es with
  | nil => intro m hm; simpa using hm
  | cons e rest ih =>
    intro m hm
    rw [List.foldl_cons]
    refine ih _ ?_
    unfold bodyStep
    cases hfe : fetch e.eactId with
    | error u => exact hm
    | ok html =>
      by_cases hek : e.eactId = k
      · rw [hek] at hfe; rw [hfe] at hk; cases hk
      · rw [mapGet_set_ne m e.eactId k _ hek]; exact hm

/-- C2: body-fetch failures are invisible to the rest of the aggregation:
with any other body-fetch oracle the aggregation still succeeds with the
same activities and comments (no email dropped, no error raised), and an
email whose body fetch failed has no body entry, so its printed body is
empty. -/
theorem c2_partial_body_failure (api : ApiOracle) (dp : String → Option Int)
    (id : Nat) (res : AggResult) (tr : List ApiCall)
    (h : aggregate api dp id = (.ok res, tr)) :
    (∀ f2 : Nat → Except Unit (Option String), ∃ res2,
      (aggregate { api with fetchEmailContent := f2 } dp id).1 = .ok res2 ∧
      res2.activities = res.activities ∧ res2.comments = res.comments) ∧
    (∀ a ∈ res.activities, a.eatyId = some activityTypeEmail →
      api.fetchEmailContent a.eactId = .error () →
      mapGet res.emailBodies a.eactId = none ∧
      printedEmailBody res.emailBodies a.eactId = "") := by
  unfold aggregate at h
  cases hfc : (api.fetchCase id).head? with
  | none => rw [hfc] at h; cases h
  | some cd =>
    rw [hfc] at h
    have hres : res =
        { activities := (aggregateActivities api dp cd).1,
          emailBodies :=
            emailBodiesMap api.fetchEmailContent (aggregateActivities api dp cd).1,
          comments := cd.texts.getD [] } := by
      have h1 := congrArg Prod.fst h
      simp only at h1
      exact (Except.ok.inj h1).symm
    subst hres
    constructor
    · intro f2
      refine ⟨{ activities := (aggregateActivities api dp cd).1,
                emailBodies :=
                  emailBodiesMap f2 (aggregateActivities api dp cd).1,
                comments := cd.texts.getD [] }, ?_, rfl, rfl⟩
      unfold aggregate
      rw [show ({ api with fetchEmailContent := f2 } : ApiOracle).fetchCase
          = api.fetchCase from rfl, hfc]
      rfl
    · intro a _ _ herr
      have hnone : mapGet
          (emailBodiesMap api.fetchEmailContent (aggregateActivities api dp cd).1)
          a.eactId = none := by
        unfold emailBodiesMap
        exact bodyFold_error api.fetchEmailContent a.eactId herr _ [] rfl
      refine ⟨hnone, ?_⟩
      unfold printedEmailBody
      rw [hnone]

/-- Concrete run of C2: one of three body fetches rejects; all three emails
are still returned and the failed one prints an empty body. -/
theorem c2_witness :
    mapGet resBodies.emailBodies 5002 = none ∧
    printedEmailBody resBodies.emailBodies 5002 = "" ∧
    resBodies.activities = [emailOne, emailTwo, emailThree] := by
  have h := c2_partial_body_failure apiBodies dpNone 7 resBodies trBodies
    (by decide)
  have h2 := h.2 emailTwo (by decide) (by decide) (by decide)
  exact ⟨h2.1, h2.2, by decide⟩

/-! ## Identity lemmas for the normalizer stages -/

/-- A string without carriage returns is untouched by line-ending
normalization. -/
theorem normNewlines_eq_self (l : List Char) (h : '\r' ∉ l) :
    normNewlines l = l := by
  induction l using normNewlines.induct with
  | case1 => rfl
  | case2 rest ih => simp at h
  | case3 rest hne ih => simp at h
  | case4 c rest hne1 hne2 ih =>
    rw [List.mem_cons, not_or] at h
    simp only [normNewlines]
    rw [ih h.2]

/-- If the matcher fails on every nonempty suffix, the scan is the
identity. -/
theorem scanReplaceF_eq_self (m : List Char → Option Nat) (rep : List Char) :
    ∀ (fuel : Nat) (l : List Char),
      (∀ s, s <:+ l → s ≠ [] → m s = none) →
      scanReplaceF m rep fuel l = l := by
  intro fuel
  induction fuel with
  | zero => intro l _; cases l <;> rfl
  | succ fuel ih =>
    intro l h
    cases l with
    | nil => rfl
    | cons c rest =>
      simp only [scanReplaceF]
      rw [h (c :: rest) List.suffix_rfl (by simp)]
      rw [ih rest (fun s hs hne => h s (hs.trans (List.suffix_cons c rest)) hne)]

/-- `scanReplace` is the identity when the trigger character of its matcher
does not occur. -/
theorem scanReplace_eq_self_of_not_mem (m : List Char → Option Nat)
    (rep : List Char) (ch : Char)
    (hm : ∀ c t, c ≠ ch → m (c :: t) = none)
    (l : List Char) (h : ch ∉ l) : scanReplace m rep l = l := by
  refine scanReplaceF_eq_self m rep l.length l ?_
  intro s hs hne
  cases s with
  | nil => exact absurd rfl hne
  | cons c t =>
    refine hm c t (fun hc => h ?_)
    exact hc ▸ hs.subset (by simp)

/-- `styleM` fails unless the input starts with `<`. -/
theorem styleM_head_none (c : Char) (t : List Char) (hc : c ≠ '<') :
    styleM (c :: t) = none := by
  unfold styleM
  split
  · next rest heq => injection heq with h1 h2; exact absurd h1 hc
  · rfl

/-- `brM` fails unless the input starts with `<`. -/
theorem brM_head_none (c : Char) (t : List Char) (hc : c ≠ '<') :
    brM (c :: t) = none := by
  unfold brM
  split
  · next rest heq => injection heq with h1 h2; exact absurd h1 hc
  · rfl

/-- `ppM` fails unless the input starts with `<`. -/
theorem ppM_head_none (c : Char) (t : List Char) (hc : c ≠ '<') :
    ppM (c :: t) = none := by
  unfold ppM
  split
  · next rest heq => injection heq with h1 h2; exact absurd h1 hc
  · rfl

/-- `blockM` fails unless the input starts with `<`. -/
theorem blockM_head_none (c : Char) (t : List Char) (hc : c ≠ '<') :
    blockM (c :: t) = none := by
  unfold blockM
  split
  · next rest heq => injection heq with h1 h2; exact absurd h1 hc
  · rfl

/-- `tagM` fails unless the input starts with `<`. -/
theorem tagM_head_none (c : Char) (t : List Char) (hc : c ≠ '<') :
    tagM (c :: t) = none := by
  unfold tagM
  split
  · next rest heq => injection heq with h1 h2; exact absurd h1 hc
  · rfl

/-- `numM` fails unless the input starts with `&`. -/
theorem numM_head_none (c : Char) (t : List Char) (hc : c ≠ '&') :
    numM (c :: t) = none := by
  unfold numM
  split
  · next rest heq => injection heq with h1 h2; exact absurd h1 hc
  · rfl

/-- If the pattern matches at no suffix, literal replacement is the
identity. -/
theorem replaceLitF_eq_self (pat rep : List Char) :
    ∀ (fuel : Nat) (l : List Char),
      (∀ s, s <:+ l → ¬(pat.isPrefixOf s ∧ pat ≠ [])) →
      replaceLitF pat rep fuel l = l := by
  intro fuel
  induction fuel with
  | zero => intro l _; cases l <;> rfl
  | succ fuel ih =>
    intro l h
    cases l with
    | nil => rfl
    | cons c rest =>
      simp only [replaceLitF]
      rw [if_neg (h (c :: rest) List.suffix_rfl)]
      rw [ih rest (fun s hs => h s (hs.trans (List.suffix_cons c rest)))]

/-- Wrapper form of `replaceLitF_eq_self`. -/
theorem replaceLit_eq_self (pat rep l : List Char)
    (h : ∀ s, s <:+ l → ¬(pat.isPrefixOf s ∧ pat ≠ [])) :
    replaceLit pat rep l = l :=
  replaceLitF_eq_self pat rep l.length l h

/-- A pattern starting with `&` matches no suffix of a string whose tail is
`&`-free, except possibly the whole string. -/
theorem amp_pat_suffix (pat rest : List Char)
    (hpat : pat.head? = some '&') (hamp : '&' ∉ rest)
    (hwhole : ¬ pat.isPrefixOf ('&' :: rest)) :
    ∀ s, s <:+ ('&' :: rest) → ¬(pat.isPrefixOf s ∧ pat ≠ []) := by
  rintro s hs ⟨hpre, -⟩
  obtain ⟨p2, hp2⟩ : ∃ p2, pat = '&' :: p2 := by
    cases pat with
    | nil => simp at hpat
    | cons p0 ps =>
      simp only [List.head?_cons, Option.some.injEq] at hpat
      exact ⟨ps, by rw [hpat]⟩
  rcases hs with ⟨pre, hpre2⟩
  cases pre with
  | nil =>
    have hseq : s = '&' :: rest := by simpa using hpre2
    exact hwhole (hseq ▸ hpre)
  | cons x xs =>
    have hsrest : s <:+ rest := by
      refine ⟨xs, ?_⟩
      have h3 := hpre2
      rw [List.cons_append] at h3
      injection h3 with h4 h5
    cases s with
    | nil => rw [hp2] at hpre; simp [List.isPrefixOf] at hpre
    | cons y ys =>
      rw [hp2] at hpre
      simp only [List.isPrefixOf, Bool.and_eq_true, beq_iff_eq] at hpre
      exact hamp (hpre.1 ▸ hsrest.subset (by simp))

/-- Folding identity replacements is the identity. -/
theorem entity_fold_eq_self :
    ∀ (rules : List (List Char × List Char)) (l : List Char),
      (∀ pr ∈ rules, replaceLit pr.1 pr.2 l = l) →
      rules.foldl (fun s pr => replaceLit pr.1 pr.2 s) l = l := by
  intro rules
  induction rules with
  | nil => intro l _; rfl
  | cons pr rest ih =>
    intro l h
    rw [List.foldl_cons, h pr (by simp)]
    exact ih l (fun q hq => h q (by simp [hq]))

/-- A pattern whose second character is not `#` is no prefix of
`'&' :: '#' :: X`. -/
theorem not_prefix_second_ne (c2 : Char) (p3 X : List Char) (hne : c2 ≠ '#') :
    ¬ (('&' :: c2 :: p3).isPrefixOf ('&' :: '#' :: X)) := by
  intro h
  simp only [List.isPrefixOf, Bool.and_eq_true, beq_iff_eq] at h
  exact hne h.2.1

/-- `&` does not occur in the tail `# d ;` of a numeric reference. -/
theorem no_amp_in_numtail (d : List Char) (hdig : ∀ c ∈ d, c.isDigit) :
    '&' ∉ ('#' :: (d ++ [';'])) := by
  intro hx
  simp only [List.mem_cons, List.mem_append, List.mem_singleton] at hx
  rcases hx with h | h | h
  · exact absurd h (by decide)
  · exact absurd (hdig '&' h) (by decide)
  · exact absurd h (by decide)

/-- A character that is not `&`, `#`, `;` or a digit does not occur in a
numeric reference. -/
theorem not_mem_numref (x : Char) (d : List Char)
    (hdig : ∀ c ∈ d, c.isDigit) (h1 : x ≠ '&') (h2 : x ≠ '#')
    (h3 : x ≠ ';') (h4 : ¬ x.isDigit) :
    x ∉ ('&' :: '#' :: (d ++ [';'])) := by
  intro hx
  rcases List.mem_cons.1 hx with h | hx2
  · exact h1 h
  rcases List.mem_cons.1 hx2 with h | hx3
  · exact h2 h
  rcases List.mem_append.1 hx3 with h | h
  · exact h4 (hdig x h)
  · exact h3 (by simpa using h)

/-- The apostrophe entity `&#39;` is no prefix of `&#d;` for a digit string
`d ≠ "39"`. -/
theorem amp39_whole_no (d : List Char) (hdig : ∀ c ∈ d, c.isDigit)
    (h39 : d ≠ ['3', '9']) :
    ¬ ("&#39;".data.isPrefixOf ('&' :: '#' :: (d ++ [';']))) := by
  intro h
  have he : "&#39;".data = ['&', '#', '3', '9', ';'] := by decide
  rw [he] at h
  simp only [List.isPrefixOf, Bool.and_eq_true, beq_iff_eq] at h
  obtain ⟨-, -, h⟩ := h
  rcases d with _ | ⟨c1, d2⟩
  · simp only [List.nil_append, List.isPrefixOf, Bool.and_eq_true,
      beq_iff_eq] at h
    exact absurd h.1 (by decide)
  · rcases d2 with _ | ⟨c2, d3⟩
    · simp only [List.cons_append, List.nil_append, List.isPrefixOf,
        Bool.and_eq_true, beq_iff_eq] at h
      exact absurd h.2.1 (by decide)
    · rcases d3 with _ | ⟨c3, d4⟩
      · simp only [List.cons_append, List.nil_append, List.isPrefixOf,
          Bool.and_eq_true, beq_iff_eq] at h
        exact h39 (by rw [← h.1, ← h.2.1])
      · simp only [List.cons_append, List.isPrefixOf, Bool.and_eq_true,
          beq_iff_eq] at h
        have hc3 : c3 = ';' := h.2.2.1.symm
        exact absurd (hdig c3 (by simp)) (by rw [hc3]; decide)

/-- The entity pass leaves a non-apostrophe numeric reference unchanged. -/
theorem applyEntities_numref (d : List Char) (hdig : ∀ c ∈ d, c.isDigit)
    (h39 : d ≠ ['3', '9']) :
    applyEntities ('&' :: '#' :: (d ++ [';'])) = ('&' :: '#' :: (d ++ [';'])) := by
  unfold applyEntities
  refine entity_fold_eq_self entityRules _ ?_
  intro pr hpr
  have hamp := no_amp_in_numtail d hdig
  simp only [entityRules, List.mem_cons, List.not_mem_nil, or_false] at hpr
  rcases hpr with h | h | h | h | h | h | h | h | h | h | h | h <;> subst h
  · exact replaceLit_eq_self _ _ _
      (amp_pat_suffix _ _ (by decide) hamp (not_prefix_second_ne 'n' _ _ (by decide)))
  · exact replaceLit_eq_self _ _ _
      (amp_pat_suffix _ _ (by decide) hamp (not_prefix_second_ne 'a' _ _ (by decide)))
  · exact replaceLit_eq_self _ _ _
      (amp_pat_suffix _ _ (by decide) hamp (not_prefix_second_ne 'l' _ _ (by decide)))
  · exact replaceLit_eq_self _ _ _
      (amp_pat_suffix _ _ (by decide) hamp (not_prefix_second_ne 'g' _ _ (by decide)))
  · exact replaceLit_eq_self _ _ _
      (amp_pat_suffix _ _ (by decide) hamp (not_prefix_second_ne 'q' _ _ (by decide)))
  · exact replaceLit_eq_self _ _ _
      (amp_pat_suffix _ _ (by decide) hamp (amp39_whole_no d hdig h39))
  · exact replaceLit_eq_self _ _ _
      (amp_pat_suffix _ _ (by decide) hamp (not_prefix_second_ne 'l' _ _ (by decide)))
  · exact replaceLit_eq_self _ _ _
      (amp_pat_suffix _ _ (by decide) hamp (not_prefix_second_ne 'r' _ _ (by decide)))
  · exact replaceLit_eq_self _ _ _
      (amp_pat_suffix _ _ (by decide) hamp (not_prefix_second_ne 'l' _ _ (by decide)))
  · exact replaceLit_eq_self _ _ _
      (amp_pat_suffix _ _ (by decide) hamp (not_prefix_second_ne 'r' _ _ (by decide)))
  · exact replaceLit_eq_self _ _ _
      (amp_pat_suffix _ _ (by decide) hamp (not_prefix_second_ne 'm' _ _ (by decide)))
  · exact replaceLit_eq_self _ _ _
      (amp_pat_suffix _ _ (by decide) hamp (not_prefix_second_ne 'n' _ _ (by decide)))

/-- Digits, then a semicolon: `takeWhile isDigit` takes exactly the digits. -/
theorem takeWhile_digits (d : List Char) (hdig : ∀ c ∈ d, c.isDigit) :
    (d ++ [';']).takeWhile Char.isDigit = d := by
  induction d with
  | nil => rfl
  | cons c rest ih =>
    rw [List.cons_append, List.takeWhile_cons, if_pos (hdig c (by simp)),
      ih (fun x hx => hdig x (by simp [hx]))]

/-- The numeric-reference matcher consumes `&#d;` whole. -/
theorem numM_full (d : List Char) (hne : d ≠ [])
    (hdig : ∀ c ∈ d, c.isDigit) :
    numM ('&' :: '#' :: (d ++ [';'])) = some (d.length + 3) := by
  unfold numM
  simp only [takeWhile_digits d hdig]
  rw [if_neg (by simpa using hne), List.drop_left]
  rfl

/-- The numeric-reference pass erases `&#d;` entirely. -/
theorem scan_num_full (d : List Char) (hne : d ≠ [])
    (hdig : ∀ c ∈ d, c.isDigit) :
    scanReplace numM [] ('&' :: '#' :: (d ++ [';'])) = [] := by
  unfold scanReplace
  have hlen : ('&' :: '#' :: (d ++ [';'])).length = (d.length + 2) + 1 := by
    simp [List.length_append]
  rw [hlen]
  simp only [scanReplaceF]
  rw [numM_full d hne hdig]
  simp only [List.nil_append]
  have hdrop : ('#' :: (d ++ [';'])).drop (d.length + 3 - 1) = [] := by
    apply List.drop_eq_nil_of_le
    simp [List.length_append]
  rw [hdrop]
  rfl

/-! ## Claim C6 -/

/-- C6, as stated, is false: the numeric reference `&#39;` is not dropped but
decoded to an apostrophe (it implements the apostrophe entity, applied
before the generic numeric-reference removal). -/
theorem c6_counterexample :
    htmlToText "&#39;" = "'" ∧ htmlToText "&#39;" ≠ "" := by
  constructor <;> decide

/-- C6 (amended): every numeric character reference `&#d;` with `d ≠ "39"`
is removed entirely, never decoded — in particular `"A&#169;B"` normalizes
to `"AB"` — while `&#39;` alone decodes to an apostrophe. -/
theorem c6_numeric_refs_dropped (d : List Char) (hne : d ≠ [])
    (hdig : ∀ c ∈ d, c.isDigit) (h39 : d ≠ ['3', '9']) :
    htmlPipeline ('&' :: '#' :: (d ++ [';'])) = [] ∧
    htmlToText "A&#169;B" = "AB" ∧ htmlToText "&#39;" = "'" := by
  refine ⟨?_, by decide, by decide⟩
  unfold htmlPipeline preStages
  have hnr : '\r' ∉ ('&' :: '#' :: (d ++ [';'])) :=
    not_mem_numref '\r' d hdig (by decide) (by decide) (by decide) (by decide)
  have hlt : '<' ∉ ('&' :: '#' :: (d ++ [';'])) :=
    not_mem_numref '<' d hdig (by decide) (by decide) (by decide) (by decide)
  rw [normNewlines_eq_self _ hnr,
    scanReplace_eq_self_of_not_mem styleM [] '<' styleM_head_none _ hlt,
    scanReplace_eq_self_of_not_mem brM ['\n'] '<' brM_head_none _ hlt,
    scanReplace_eq_self_of_not_mem ppM ['\n'] '<' ppM_head_none _ hlt,
    scanReplace_eq_self_of_not_mem blockM ['\n'] '<' blockM_head_none _ hlt,
    scanReplace_eq_self_of_not_mem tagM [] '<' tagM_head_none _ hlt,
    applyEntities_numref d hdig h39,
    scan_num_full d hne hdig]
  rfl

/-- Concrete run of the amended C6 at `d = "169"`. -/
theorem c6_witness :
    htmlPipeline ('&' :: '#' :: (['1', '6', '9'] ++ [';'])) = [] :=
  (c6_numeric_refs_dropped ['1', '6', '9'] (by decide) (by decide)
    (by decide)).1

/-! ## Claim C7 -/

/-- C7, as stated, is false for the non-breaking-space entity: `"&nbsp;"`
normalizes to `""`, not to a space — the decoded space is a
whitespace-only line, cleared by the blank-line rule and the final trim. -/
theorem c7_counterexample :
    htmlToText "&nbsp;" = "" ∧ htmlToText "&nbsp;" ≠ " " := by
  constructor <;> decide

/-- C7 (amended): each of the other ten entities decodes, alone, to its
literal character; `&nbsp;` decodes to a space which the blank-line rule and
trim then remove, so alone it normalizes to the empty string. -/
theorem c7_entity_decoding :
    htmlToText "&amp;" = "&" ∧
    htmlToText "&lt;" = "<" ∧
    htmlToText "&gt;" = ">" ∧
    htmlToText "&quot;" = "\"" ∧
    htmlToText "&#39;" = "'" ∧
    htmlToText "&ldquo;" = "“" ∧
    htmlToText "&rdquo;" = "”" ∧
    htmlToText "&lsquo;" = "‘" ∧
    htmlToText "&rsquo;" = "’" ∧
    htmlToText "&mdash;" = "—" ∧
    htmlToText "&ndash;" = "–" ∧
    htmlToText "&nbsp;" = "" := by
  decide

/-! ## Claim C5 (counterexample) -/

/-- C5, as stated, is false: the normalizer is not idempotent.  JavaScript's
global replace does not rescan replacement text, so
`htmlToText "&amp;amp;" = "&amp;"`, and a second pass decodes that to
`"&"`. -/
theorem c5_counterexample :
    htmlToText (htmlToText "&amp;amp;") ≠ htmlToText "&amp;amp;" := by
  decide

/-! ## Line-structure lemmas (blank-line rule) -/

/-- `splitLines` never returns the empty list. -/
theorem splitLines_ne_nil (l : List Char) : splitLines l ≠ [] := by
  cases l with
  | nil => simp [splitLines]
  | cons c rest =>
    simp only [splitLines]
    split
    · simp
    · split <;> simp

/-- Splitting at a newline head. -/
theorem splitLines_cons_nl (rest : List Char) :
    splitLines ('\n' :: rest) = [] :: splitLines rest := by
  simp [splitLines]

/-- Splitting at a non-newline head extends the first line. -/
theorem splitLines_cons_ne (c : Char) (rest : List Char) (hc : c ≠ '\n')
    (a : List Char) (as : List (List Char)) (h : splitLines rest = a :: as) :
    splitLines (c :: rest) = (c :: a) :: as := by
  simp only [splitLines, if_neg hc, h]

/-- `unlines` after extending the first line. -/
theorem unlines_cons_head (c : Char) (a : List Char) (as : List (List Char)) :
    unlines ((c :: a) :: as) = c :: unlines (a :: as) := by
  cases as <;> rfl

/-- Joining the split lines restores the string. -/
theorem unlines_splitLines (l : List Char) : unlines (splitLines l) = l := by
  induction l with
  | nil => rfl
  | cons c rest ih =>
    by_cases hc : c = '\n'
    · subst hc
      rw [splitLines_cons_nl]
      cases hsp : splitLines rest with
      | nil => exact absurd hsp (splitLines_ne_nil rest)
      | cons a as =>
        rw [hsp] at ih
        show unlines ([] :: a :: as) = '\n' :: rest
        show [] ++ '\n' :: unlines (a :: as) = '\n' :: rest
        rw [List.nil_append, ih]
    · cases hsp : splitLines rest with
      | nil => exact absurd hsp (splitLines_ne_nil rest)
      | cons a as =>
        rw [splitLines_cons_ne c rest hc a as hsp, unlines_cons_head,
          ← hsp, ih]

/-- No line produced by `splitLines` contains a newline. -/
theorem splitLines_no_nl (l : List Char) :
    ∀ ln ∈ splitLines l, '\n' ∉ ln := by
  induction l with
  | nil =>
    intro ln h
    simp only [splitLines, List.mem_singleton] at h
    subst h; simp
  | cons c rest ih =>
    by_cases hc : c = '\n'
    · subst hc
      rw [splitLines_cons_nl]
      intro ln h
      rcases List.mem_cons.1 h with rfl | h2
      · simp
      · exact ih ln h2
    · cases hsp : splitLines rest with
      | nil => exact absurd hsp (splitLines_ne_nil rest)
      | cons a as =>
        rw [splitLines_cons_ne c rest hc a as hsp]
        intro ln h
        rcases List.mem_cons.1 h with rfl | h2
        · intro hmem
          rcases List.mem_cons.1 hmem with h3 | h3
          · exact hc h3.symm
          · exact ih a (by simp [hsp]) h3
        · exact ih ln (by simp [hsp, h2])

/-- A newline-free string is a single line. -/
theorem splitLines_no_nl_self (a : List Char) (h : '\n' ∉ a) :
    splitLines a = [a] := by
  induction a with
  | nil => rfl
  | cons c t ih =>
    rw [List.mem_cons, not_or] at h
    exact splitLines_cons_ne c t (fun hc => h.1 hc.symm) t []
      (ih h.2)

/-- Splitting a newline-free prefix off. -/
theorem splitLines_append_nl (a v : List Char) (h : '\n' ∉ a) :
    splitLines (a ++ '\n' :: v) = a :: splitLines v := by
  induction a with
  | nil => simpa using splitLines_cons_nl v
  | cons c t ih =>
    rw [List.mem_cons, not_or] at h
    rw [List.cons_append]
    cases hsp : splitLines (t ++ '\n' :: v) with
    | nil => exact absurd hsp (splitLines_ne_nil _)
    | cons b bs =>
      rw [splitLines_cons_ne c _ (fun hc => h.1 hc.symm) b bs hsp]
      have := ih h.2
      rw [hsp] at this
      injection this with h1 h2
      rw [h1, h2]

/-- Splitting is a left inverse of joining, for newline-free lines. -/
theorem splitLines_unlines (lns : List (List Char)) (hne : lns ≠ [])
    (hnl : ∀ ln ∈ lns, '\n' ∉ ln) : splitLines (unlines lns) = lns := by
  induction lns with
  | nil => exact absurd rfl hne
  | cons a as ih =>
    cases as with
    | nil => exact splitLines_no_nl_self a (hnl a (by simp))
    | cons b bs =>
      show splitLines (a ++ '\n' :: unlines (b :: bs)) = a :: b :: bs
      rw [splitLines_append_nl a _ (hnl a (by simp)),
        ih (by simp) (fun ln hln => hnl ln (by simp [hln]))]

/-- Characters of split lines come from the string. -/
theorem mem_splitLines (l : List Char) :
    ∀ ln ∈ splitLines l, ∀ c ∈ ln, c ∈ l := by
  induction l with
  | nil =>
    intro ln h
    simp only [splitLines, List.mem_singleton] at h
    subst h; simp
  | cons x rest ih =>
    by_cases hx : x = '\n'
    · subst hx
      rw [splitLines_cons_nl]
      intro ln h c hc
      rcases List.mem_cons.1 h with rfl | h2
      · simp at hc
      · exact List.mem_cons_of_mem _ (ih ln h2 c hc)
    · cases hsp : splitLines rest with
      | nil => exact absurd hsp (splitLines_ne_nil rest)
      | cons a as =>
        rw [splitLines_cons_ne x rest hx a as hsp]
        intro ln h c hc
        rcases List.mem_cons.1 h with rfl | h2
        · rcases List.mem_cons.1 hc with rfl | h3
          · simp
          · exact List.mem_cons_of_mem _ (ih a (by simp [hsp]) c h3)
        · refine List.mem_cons_of_mem _ (ih ln ?_ c hc)
          rw [hsp]
          exact List.mem_cons_of_mem _ h2

/-- Characters of a join come from the lines or are newlines. -/
theorem mem_unlines (lns : List (List Char)) (c : Char)
    (h : c ∈ unlines lns) : (∃ ln ∈ lns, c ∈ ln) ∨ c = '\n' := by
  induction lns with
  | nil => simp [unlines] at h
  | cons a as ih =>
    cases as with
    | nil =>
      simp only [unlines] at h
      exact Or.inl ⟨a, by simp, h⟩
    | cons b bs =>
      rw [show unlines (a :: b :: bs) = a ++ '\n' :: unlines (b :: bs)
        from rfl] at h
      rcases List.mem_append.1 h with h1 | h1
      · exact Or.inl ⟨a, by simp, h1⟩
      · rcases List.mem_cons.1 h1 with rfl | h2
        · exact Or.inr rfl
        · rcases ih h2 with ⟨ln, hln, hc⟩ | h3
          · exact Or.inl ⟨ln, by simp [hln], hc⟩
          · exact Or.inr h3

/-- An acceptable line is untouched by the blank-line rule. -/
theorem fixLine_eq_self (ln : List Char) (h : lineOk ln) :
    fixLine ln = ln := by
  unfold fixLine
  rw [if_neg]
  intro hb
  unfold isBlankWsLine at hb
  rw [Bool.and_eq_true, decide_eq_true_eq, List.all_eq_true] at hb
  rcases h with rfl | ⟨c, hc, hcn⟩
  · exact hb.1 rfl
  · have := hb.2 c hc
    simp only [Bool.or_eq_true, decide_eq_true_eq] at this
    exact hcn this

/-- The blank-line rule outputs acceptable lines. -/
theorem fixLine_ok (ln : List Char) : lineOk (fixLine ln) := by
  unfold fixLine
  split
  · exact Or.inl rfl
  · next hb =>
    by_cases hln : ln = []
    · exact Or.inl hln
    · refine Or.inr ?_
      unfold isBlankWsLine at hb
      rw [Bool.and_eq_true, decide_eq_true_eq, List.all_eq_true, not_and_or] at hb
      rcases hb with hb | hb
      · exact absurd hln (by simpa using hb)
      · push_neg at hb
        obtain ⟨c, hc, hcn⟩ := hb
        refine ⟨c, hc, ?_⟩
        simpa using hcn

/-- The blank-line rule keeps lines newline-free. -/
theorem fixLine_no_nl (ln : List Char) (h : '\n' ∉ ln) :
    '\n' ∉ fixLine ln := by
  unfold fixLine
  split
  · simp
  · exact h

/-- The lines of `blankLines l` are the fixed lines of `l`. -/
theorem blankLines_lines (l : List Char) :
    splitLines (blankLines l) = (splitLines l).map fixLine := by
  unfold blankLines
  refine splitLines_unlines _ ?_ ?_
  · simpa using splitLines_ne_nil l
  · intro ln h
    rcases List.mem_map.1 h with ⟨ln0, h0, rfl⟩
    exact fixLine_no_nl ln0 (splitLines_no_nl l ln0 h0)

/-- All lines of `blankLines l` are acceptable. -/
theorem blankLines_linesOk (l : List Char) : linesOk (blankLines l) := by
  intro ln h
  rw [blankLines_lines] at h
  rcases List.mem_map.1 h with ⟨ln0, h0, rfl⟩
  exact fixLine_ok ln0

/-- The blank-line rule is the identity on strings with acceptable lines. -/
theorem blankLines_eq_self (l : List Char) (h : linesOk l) :
    blankLines l = l := by
  unfold blankLines
  have hm : (splitLines l).map fixLine = (splitLines l).map id :=
    List.map_congr_left (fun a ha => fixLine_eq_self a (h a ha))
  rw [hm, List.map_id, unlines_splitLines]

/-- Characters of `blankLines l` come from `l` or are newlines. -/
theorem mem_blankLines (l : List Char) (c : Char) (h : c ∈ blankLines l) :
    c ∈ l ∨ c = '\n' := by
  unfold blankLines at h
  rcases mem_unlines _ _ h with ⟨ln, hln, hc⟩ | rfl
  · rcases List.mem_map.1 hln with ⟨ln0, h0, rfl⟩
    have hc0 : c ∈ ln0 := by
      unfold fixLine at hc
      split at hc
      · simp at hc
      · exact hc
    exact Or.inl (mem_splitLines l ln0 h0 c hc0)
  · exact Or.inr rfl

/-! ## Newline-run lemmas (collapsing rule) -/

/-- Triple-freeness passes to the tail. -/
theorem hasTriple_tail (x : Char) (l : List Char)
    (h : hasTriple (x :: l) = false) : hasTriple l = false := by
  cases l with
  | nil => rfl
  | cons y t =>
    cases t with
    | nil => rfl
    | cons z t2 =>
      rw [show hasTriple (x :: y :: z :: t2) =
        ((x = '\n' && y = '\n' && z = '\n') || hasTriple (y :: z :: t2))
        from rfl, Bool.or_eq_false_iff] at h
      exact h.2

/-- A triple survives appending on the right. -/
theorem hasTriple_append (l t : List Char) (h : hasTriple l = true) :
    hasTriple (l ++ t) = true := by
  induction l using hasTriple.induct with
  | case1 => simp [hasTriple] at h
  | case2 => simp [hasTriple] at h
  | case3 => simp [hasTriple] at h
  | case4 a b c rest ih =>
    rw [show (a :: b :: c :: rest) ++ t = a :: b :: c :: (rest ++ t) from rfl]
    rw [show hasTriple (a :: b :: c :: (rest ++ t)) =
      ((a = '\n' && b = '\n' && c = '\n') || hasTriple (b :: c :: (rest ++ t)))
      from rfl]
    rw [show hasTriple (a :: b :: c :: rest) =
      ((a = '\n' && b = '\n' && c = '\n') || hasTriple (b :: c :: rest))
      from rfl] at h
    rw [Bool.or_eq_true] at h ⊢
    rcases h with h1 | h2
    · exact Or.inl h1
    · exact Or.inr (ih h2)

/-- Triple-freeness restricts to prefixes. -/
theorem hasTriple_of_isPre (v u : List Char) (h : v <+: u)
    (hu : hasTriple u = false) : hasTriple v = false := by
  obtain ⟨t, rfl⟩ := h
  by_contra hc
  rw [Bool.not_eq_false] at hc
  rw [hasTriple_append v t hc] at hu
  cases hu

/-- Triple-freeness restricts to suffixes. -/
theorem hasTriple_of_isSuf (v u : List Char) (h : v <:+ u)
    (hu : hasTriple u = false) : hasTriple v = false := by
  obtain ⟨t, rfl⟩ := h
  induction t with
  | nil => exact hu
  | cons x t2 ih => exact ih (hasTriple_tail x (t2 ++ v) hu)

/-- A non-newline head does not create a triple. -/
theorem hasTriple_cons_ne (c : Char) (v : List Char) (hc : c ≠ '\n')
    (hv : hasTriple v = false) : hasTriple (c :: v) = false := by
  cases v with
  | nil => rfl
  | cons x v2 =>
    cases v2 with
    | nil => rfl
    | cons y v3 =>
      rw [show hasTriple (c :: x :: y :: v3) =
        ((c = '\n' && x = '\n' && y = '\n') || hasTriple (x :: y :: v3))
        from rfl]
      simp [hc, hv]

/-- One leading newline before a newline-free head is triple-free. -/
theorem hasTriple_nl_one (v : List Char) (hhead : v.head? ≠ some '\n')
    (hv : hasTriple v = false) : hasTriple ('\n' :: v) = false := by
  cases v with
  | nil => rfl
  | cons x v2 =>
    have hx : x ≠ '\n' := fun h => hhead (by simp [h])
    cases v2 with
    | nil => rfl
    | cons y v3 =>
      rw [show hasTriple ('\n' :: x :: y :: v3) =
        (('\n' = '\n' && x = '\n' && y = '\n') || hasTriple (x :: y :: v3))
        from rfl]
      simp [hx, hv]

/-- Two leading newlines before a newline-free head are triple-free. -/
theorem hasTriple_nl_nl (v : List Char) (hhead : v.head? ≠ some '\n')
    (hv : hasTriple v = false) : hasTriple ('\n' :: '\n' :: v) = false := by
  cases v with
  | nil => rfl
  | cons x v2 =>
    have hx : x ≠ '\n' := fun h => hhead (by simp [h])
    rw [show hasTriple ('\n' :: '\n' :: x :: v2) =
      (('\n' = '\n' && '\n' = '\n' && x = '\n') || hasTriple ('\n' :: x :: v2))
      from rfl]
    simp only [Bool.or_eq_false_iff]
    refine ⟨by simp [hx], ?_⟩
    exact hasTriple_nl_one (x :: v2) (by simpa using hx) hv

/-- The head of a `dropWhile` fails the predicate. -/
theorem dropWhile_head_not (p : Char → Bool) (l : List Char) (c : Char)
    (h : (l.dropWhile p).head? = some c) : p c = false := by
  induction l with
  | nil => simp [List.dropWhile] at h
  | cons x rest ih =>
    rw [List.dropWhile_cons] at h
    split at h
    · exact ih h
    · next hpx =>
      simp only [List.head?_cons, Option.some.injEq] at h
      subst h
      simpa using hpx

/-- The leading newline run is literally a replicate. -/
theorem takeWhile_nl_eq (rest : List Char) :
    rest.takeWhile (fun c => c = '\n') =
      List.replicate (rest.takeWhile (fun c => c = '\n')).length '\n' := by
  refine List.eq_replicate_of_mem ?_
  intro b hb
  have := List.mem_takeWhile_imp hb
  simpa using this

/-- Collapsing keeps the head character. -/
theorem collapseNlF_head (fuel : Nat) (l : List Char) :
    (collapseNlF fuel l).head? = l.head? := by
  induction fuel generalizing l with
  | zero => cases l <;> rfl
  | succ fuel ih =>
    cases l with
    | nil => rfl
    | cons c rest =>
      simp only [collapseNlF]
      by_cases hc : c = '\n'
      · subst hc
        rw [if_pos rfl]
        split <;> rfl
      · rw [if_neg hc]
        rfl

/-- Collapsed output is triple-free (with enough fuel). -/
theorem collapseNlF_noTriple (fuel : Nat) :
    ∀ l : List Char, l.length ≤ fuel →
      hasTriple (collapseNlF fuel l) = false := by
  induction fuel with
  | zero =>
    intro l hl
    have : l = [] := List.eq_nil_of_length_eq_zero (Nat.le_zero.1 hl)
    subst this
    rfl
  | succ fuel ih =>
    intro l hl
    cases l with
    | nil => rfl
    | cons c rest =>
      simp only [collapseNlF]
      by_cases hc : c = '\n'
      · subst hc
        rw [if_pos rfl]
        have hlen2 : (rest.dropWhile (fun c => c = '\n')).length ≤ fuel := by
          have := dropWhile_length_le (fun c => c = '\n') rest
          simp only [List.length_cons] at hl
          omega
        have hout := ih _ hlen2
        have hhead : (collapseNlF fuel
            (rest.dropWhile (fun c => c = '\n'))).head? ≠ some '\n' := by
          rw [collapseNlF_head]
          intro heq
          have := dropWhile_head_not _ _ _ heq
          simp at this
        split
        · exact hasTriple_nl_nl _ hhead hout
        · next hn =>
          have hn1 : (rest.takeWhile (fun c => c = '\n')).length = 0 ∨
              (rest.takeWhile (fun c => c = '\n')).length = 1 := by omega
          rcases hn1 with hn1 | hn1 <;> rw [hn1]
          · simpa using hasTriple_nl_one _ hhead hout
          · simpa using hasTriple_nl_nl _ hhead hout
      · rw [if_neg hc]
        refine hasTriple_cons_ne c _ hc (ih rest ?_)
        simp only [List.length_cons] at hl
        omega

/-- Collapsing is the identity on triple-free strings. -/
theorem collapseNlF_eq_self (fuel : Nat) :
    ∀ l : List Char, hasTriple l = false → collapseNlF fuel l = l := by
  induction fuel with
  | zero => intro l _; cases l <;> rfl
  | succ fuel ih =>
    intro l hl
    cases l with
    | nil => rfl
    | cons c rest =>
      simp only [collapseNlF]
      by_cases hc : c = '\n'
      · subst hc
        rw [if_pos rfl]
        have hsplit : rest =
            List.replicate (rest.takeWhile (fun c => c = '\n')).length '\n' ++
              rest.dropWhile (fun c => c = '\n') := by
          conv_lhs => rw [← List.takeWhile_append_dropWhile
            (fun c => c = '\n') rest]
          rw [← takeWhile_nl_eq]
        have hrest2 : hasTriple (rest.dropWhile (fun c => c = '\n')) = false := by
          refine hasTriple_of_isSuf _ _ ?_ (hasTriple_tail _ _ hl)
          exact ⟨rest.takeWhile (fun c => c = '\n'),
            List.takeWhile_append_dropWhile _ _⟩
        split
        · next hn =>
          exfalso
          have h2 : 2 ≤ (rest.takeWhile (fun c => c = '\n')).length := by omega
          obtain ⟨m, hm⟩ : ∃ m,
              (rest.takeWhile (fun c => c = '\n')).length = m + 2 :=
            ⟨_, (Nat.sub_add_cancel h2).symm⟩
          rw [hm] at hsplit
          rw [show List.replicate (m + 2) '\n' = '\n' :: '\n' ::
            List.replicate m '\n' from rfl] at hsplit
          rw [hsplit] at hl
          simp [hasTriple] at hl
        · rw [ih _ hrest2]
          conv_rhs => rw [hsplit]
          rw [List.cons_append]
      · rw [if_neg hc, ih rest (hasTriple_tail c rest hl)]

/-- `splitLines` output destructured. -/
theorem splitLines_dest (l : List Char) : ∃ a as, splitLines l = a :: as := by
  cases h : splitLines l with
  | nil => exact absurd h (splitLines_ne_nil l)
  | cons a as => exact ⟨a, as, rfl⟩

/-- `head?` members belong to the list. -/
theorem head?_mem_self {α : Type} (l : List α) (a : α) (h : l.head? = some a) :
    a ∈ l := by
  cases l with
  | nil => simp at h
  | cons x t =>
    simp only [List.head?_cons, Option.some.injEq] at h
    subst h
    exact List.mem_cons_self _ _

/-- A leading newline run splits into empty lines. -/
theorem splitLines_replicate_nl (n : Nat) (v : List Char) :
    splitLines (List.replicate n '\n' ++ v) =
      List.replicate n [] ++ splitLines v := by
  induction n with
  | zero => simp
  | succ n ih => simp [List.replicate_succ, splitLines_cons_nl, ih]

/-- A string is its leading newline run plus the remainder. -/
theorem nl_run_split (rest : List Char) :
    rest = List.replicate (rest.takeWhile (fun c => c = '\n')).length '\n' ++
      rest.dropWhile (fun c => c = '\n') := by
  conv_lhs => rw [← List.takeWhile_append_dropWhile (fun c => c = '\n') rest]
  rw [← takeWhile_nl_eq]

/-- The `dropWhile` result is a suffix. -/
theorem dropWhile_isSuf (p : Char → Bool) (l : List Char) :
    l.dropWhile p <:+ l :=
  ⟨l.takeWhile p, List.takeWhile_append_dropWhile _ _⟩

/-- Collapsing keeps the first line. -/
theorem collapse_lines_head (fuel : Nat) :
    ∀ l, (splitLines (collapseNlF fuel l)).head? = (splitLines l).head? := by
  induction fuel with
  | zero => intro l; cases l <;> rfl
  | succ fuel ih =>
    intro l
    cases l with
    | nil => rfl
    | cons c rest =>
      simp only [collapseNlF]
      by_cases hc : c = '\n'
      · subst hc
        rw [if_pos rfl]
        split
        · simp [splitLines_cons_nl]
        · simp [List.cons_append, splitLines_cons_nl]
      · rw [if_neg hc]
        obtain ⟨a, as, ha⟩ := splitLines_dest (collapseNlF fuel rest)
        obtain ⟨b, bs, hb⟩ := splitLines_dest rest
        rw [splitLines_cons_ne c _ hc a as ha,
          splitLines_cons_ne c rest hc b bs hb]
        have hih := ih rest
        rw [ha, hb] at hih
        simp only [List.head?_cons, Option.some.injEq] at hih ⊢
        rw [hih]

/-- Every non-first line of the collapsed string is a non-first line of the
original, or empty. -/
theorem collapse_lines_tail (fuel : Nat) :
    ∀ l, ∀ ln ∈ (splitLines (collapseNlF fuel l)).tail,
      ln ∈ (splitLines l).tail ∨ ln = [] := by
  induction fuel with
  | zero =>
    intro l ln h
    cases l with
    | nil => simp [collapseNlF, splitLines] at h
    | cons c rest => exact Or.inl h
  | succ fuel ih =>
    intro l ln h
    cases l with
    | nil => simp [collapseNlF, splitLines] at h
    | cons c rest =>
      simp only [collapseNlF] at h
      by_cases hc : c = '\n'
      · subst hc
        rw [if_pos rfl] at h
        have htailstruct : (splitLines ('\n' :: rest)).tail =
            List.replicate (rest.takeWhile (fun c => c = '\n')).length [] ++
              splitLines (rest.dropWhile (fun c => c = '\n')) := by
          rw [splitLines_cons_nl]
          show splitLines rest = _
          conv_lhs => rw [nl_run_split rest]
          rw [splitLines_replicate_nl]
        have hout : ∀ x ∈ splitLines (collapseNlF fuel
            (rest.dropWhile (fun c => c = '\n'))),
            x ∈ (splitLines ('\n' :: rest)).tail ∨ x = [] := by
          intro x hx
          obtain ⟨a, as, ha⟩ := splitLines_dest
            (collapseNlF fuel (rest.dropWhile (fun c => c = '\n')))
          rw [ha] at hx
          rcases List.mem_cons.1 hx with rfl | hx2
          · have hh := collapse_lines_head fuel
              (rest.dropWhile (fun c => c = '\n'))
            rw [ha] at hh
            obtain ⟨b, bs, hb⟩ := splitLines_dest
              (rest.dropWhile (fun c => c = '\n'))
            rw [hb] at hh
            simp only [List.head?_cons, Option.some.injEq] at hh
            subst hh
            rw [htailstruct]
            exact Or.inl (List.mem_append.2 (Or.inr (by rw [hb]; simp)))
          · have := ih (rest.dropWhile (fun c => c = '\n')) x
              (by rw [ha]; exact hx2)
            rcases this with h3 | rfl
            · rw [htailstruct]
              exact Or.inl (List.mem_append.2 (Or.inr (List.mem_of_mem_tail h3)))
            · exact Or.inr rfl
        split at h
        · rw [splitLines_cons_nl, splitLines_cons_nl] at h
          rcases List.mem_cons.1 h with rfl | h2
          · exact Or.inr rfl
          · exact hout ln h2
        · rw [List.cons_append, splitLines_cons_nl] at h
          rw [show (List.replicate
              (rest.takeWhile (fun c => c = '\n')).length '\n' ++
              collapseNlF fuel (rest.dropWhile (fun c => c = '\n'))) =
            (List.replicate (rest.takeWhile (fun c => c = '\n')).length '\n' ++
              collapseNlF fuel (rest.dropWhile (fun c => c = '\n')))
            from rfl, splitLines_replicate_nl] at h
          rcases List.mem_append.1 h with h2 | h2
          · exact Or.inr (List.eq_of_mem_replicate h2)
          · exact hout ln h2
      · rw [if_neg hc] at h
        obtain ⟨a, as, ha⟩ := splitLines_dest (collapseNlF fuel rest)
        obtain ⟨b, bs, hb⟩ := splitLines_dest rest
        rw [splitLines_cons_ne c _ hc a as ha] at h
        rw [splitLines_cons_ne c rest hc b bs hb]
        have := ih rest ln (by rw [ha]; exact h)
        rw [hb] at this
        exact this

/-- Characters of the collapsed string come from the original. -/
theorem mem_collapseNlF (fuel : Nat) :
    ∀ l c, c ∈ collapseNlF fuel l → c ∈ l := by
  induction fuel with
  | zero =>
    intro l c h
    cases l with
    | nil => exact absurd h (List.not_mem_nil c)
    | cons x rest => exact h
  | succ fuel ih =>
    intro l c h
    cases l with
    | nil => exact absurd h (List.not_mem_nil c)
    | cons x rest =>
      simp only [collapseNlF] at h
      by_cases hx : x = '\n'
      · subst hx
        rw [if_pos rfl] at h
        have hsub : ∀ d, d ∈ collapseNlF fuel
            (rest.dropWhile (fun c => c = '\n')) → d ∈ rest := fun d hd =>
          (dropWhile_isSuf _ rest).subset (ih _ d hd)
        split at h
        · rcases List.mem_cons.1 h with rfl | h2
          · exact List.mem_cons_self _ _
          rcases List.mem_cons.1 h2 with rfl | h3
          · exact List.mem_cons_self _ _
          · exact List.mem_cons_of_mem _ (hsub c h3)
        · rcases List.mem_append.1 h with h2 | h3
          · have hcnl : c = '\n' := by
              rcases List.mem_cons.1 h2 with rfl | h4
              · rfl
              · exact List.eq_of_mem_replicate h4
            subst hcnl
            exact List.mem_cons_self _ _
          · exact List.mem_cons_of_mem _ (hsub c h3)
      · rw [if_neg hx] at h
        rcases List.mem_cons.1 h with rfl | h2
        · exact List.mem_cons_self _ _
        · exact List.mem_cons_of_mem _ (ih rest c h2)

/-- All lines of the collapsed string are acceptable if the original's are. -/
theorem linesOk_collapseNl (l : List Char) (h : linesOk l) :
    linesOk (collapseNl l) := by
  intro ln hln
  unfold collapseNl at hln
  obtain ⟨a, as, ha⟩ := splitLines_dest (collapseNlF l.length l)
  rw [ha] at hln
  rcases List.mem_cons.1 hln with rfl | h2
  · have hh := collapse_lines_head l.length l
    rw [ha] at hh
    obtain ⟨b, bs, hb⟩ := splitLines_dest l
    rw [hb] at hh
    simp only [List.head?_cons, Option.some.injEq] at hh
    rw [hh]
    exact h b (by rw [hb]; exact List.mem_cons_self _ _)
  · have := collapse_lines_tail l.length l ln (by rw [ha]; exact h2)
    rcases this with h3 | rfl
    · exact h ln (List.mem_of_mem_tail h3)
    · exact Or.inl rfl

/-! ## Line-structure lemmas for trimming -/

/-- Non-first lines of a suffix are non-first lines of the whole. -/
theorem suffix_tail_lines (u : List Char) :
    ∀ v, v <:+ u → ∀ ln ∈ (splitLines v).tail, ln ∈ (splitLines u).tail := by
  induction u with
  | nil =>
    intro v hv ln hln
    rw [List.suffix_nil.1 hv] at hln
    simp [splitLines] at hln
  | cons c rest ih =>
    intro v hv ln hln
    rcases List.suffix_cons_iff.1 hv with rfl | h2
    · exact hln
    · have h3 := ih v h2 ln hln
      by_cases hc : c = '\n'
      · subst hc
        rw [splitLines_cons_nl]
        exact List.mem_of_mem_tail h3
      · obtain ⟨a, as, ha⟩ := splitLines_dest rest
        rw [splitLines_cons_ne c rest hc a as ha]
        rw [ha] at h3
        exact h3

/-- A prefix with at least two lines has the same first line as the whole. -/
theorem prefix_lines_head (u : List Char) :
    ∀ v, v <+: u → 2 ≤ (splitLines v).length →
      (splitLines v).head? = (splitLines u).head? := by
  induction u with
  | nil =>
    intro v hv hlen
    rw [List.prefix_nil.1 hv] at hlen
    simp [splitLines] at hlen
  | cons c rest ih =>
    intro v hv hlen
    cases v with
    | nil => simp [splitLines] at hlen
    | cons x v2 =>
      obtain ⟨hxc, h2⟩ := List.cons_prefix_cons.1 hv
      subst hxc
      by_cases hc : x = '\n'
      · subst hc
        rw [splitLines_cons_nl, splitLines_cons_nl]
        rfl
      · obtain ⟨a, as, ha⟩ := splitLines_dest v2
        obtain ⟨b, bs, hb⟩ := splitLines_dest rest
        rw [splitLines_cons_ne x v2 hc a as ha,
          splitLines_cons_ne x rest hc b bs hb]
        have hlen2 : 2 ≤ (splitLines v2).length := by
          rw [splitLines_cons_ne x v2 hc a as ha] at hlen
          rw [ha]
          simpa using hlen
        have hih := ih v2 h2 hlen2
        rw [ha, hb] at hih
        simp only [List.head?_cons, Option.some.injEq] at hih ⊢
        rw [hih]

/-- `getLast?` of a cons with nonempty tail. -/
theorem getLast?_cons_of_ne {α : Type} (x : α) (l : List α) (h : l ≠ []) :
    (x :: l).getLast? = l.getLast? := by
  cases l with
  | nil => exact absurd rfl h
  | cons y t => exact List.getLast?_cons_cons

/-- Nonempty lists have a last element. -/
theorem getLast?_some {α : Type} :
    ∀ (l : List α), l ≠ [] → ∃ c, l.getLast? = some c
  | [x], _ => ⟨x, rfl⟩
  | x :: y :: t, _ => by
    rw [List.getLast?_cons_cons]
    exact getLast?_some (y :: t) (by simp)

/-- Non-first lines of a prefix are its last line or non-first lines of the
whole. -/
theorem prefix_tail_lines (u : List Char) :
    ∀ v, v <+: u → ∀ ln ∈ (splitLines v).tail,
      (splitLines v).getLast? = some ln ∨ ln ∈ (splitLines u).tail := by
  induction u with
  | nil =>
    intro v hv ln hln
    rw [List.prefix_nil.1 hv] at hln
    simp [splitLines] at hln
  | cons c rest ih =>
    intro v hv ln hln
    cases v with
    | nil => simp [splitLines] at hln
    | cons x v2 =>
      obtain ⟨hxc, h2⟩ := List.cons_prefix_cons.1 hv
      subst hxc
      by_cases hc : x = '\n'
      · subst hc
        rw [splitLines_cons_nl] at hln ⊢
        obtain ⟨b, bs, hb⟩ := splitLines_dest v2
        rw [hb] at hln
        rcases List.mem_cons.1 hln with rfl | hln2
        · cases bs with
          | nil =>
            left
            rw [hb, getLast?_cons_of_ne [] [ln] (by simp)]
            rfl
          | cons b2 bs2 =>
            right
            have hlen : 2 ≤ (splitLines v2).length := by rw [hb]; simp
            have hh := prefix_lines_head rest v2 h2 hlen
            rw [hb] at hh
            obtain ⟨e, es, he⟩ := splitLines_dest rest
            rw [he] at hh
            simp only [List.head?_cons, Option.some.injEq] at hh
            rw [splitLines_cons_nl]
            show ln ∈ splitLines rest
            rw [he, ← hh]
            exact List.mem_cons_self _ _
        · have := ih v2 h2 ln (by rw [hb]; exact hln2)
          rcases this with hgl | htl
          · left
            rw [hb] at hgl
            rw [hb, getLast?_cons_of_ne [] (b :: bs) (by simp)]
            exact hgl
          · right
            rw [splitLines_cons_nl]
            show ln ∈ splitLines rest
            exact List.mem_of_mem_tail htl
      · obtain ⟨a, as, ha⟩ := splitLines_dest v2
        obtain ⟨b, bs, hb⟩ := splitLines_dest rest
        rw [splitLines_cons_ne x v2 hc a as ha] at hln
        rw [splitLines_cons_ne x rest hc b bs hb]
        have hln2 : ln ∈ (splitLines v2).tail := by rw [ha]; exact hln
        have := ih v2 h2 ln hln2
        rcases this with hgl | htl
        · left
          rw [ha] at hgl
          have hasne : as ≠ [] := by
            intro he
            rw [he] at hln
            exact absurd hln (List.not_mem_nil ln)
          rw [splitLines_cons_ne x v2 hc a as ha,
            getLast?_cons_of_ne (x :: a) as hasne]
          rw [getLast?_cons_of_ne a as hasne] at hgl
          exact hgl
        · right
          rw [hb] at htl
          exact htl

/-- The last character of a string belongs to its last line. -/
theorem lastChar_mem_lastLine (l : List Char) (c : Char)
    (hc : l.getLast? = some c) (hcn : c ≠ '\n') :
    ∀ ln, (splitLines l).getLast? = some ln → c ∈ ln := by
  induction l with
  | nil => simp at hc
  | cons x rest ih =>
    intro ln hln
    cases rest with
    | nil =>
      simp only [List.getLast?_singleton, Option.some.injEq] at hc
      subst hc
      have hx : x ≠ '\n' := hcn
      rw [splitLines_no_nl_self [x] (by simpa using Ne.symm hx)] at hln
      simp only [List.getLast?_singleton, Option.some.injEq] at hln
      subst hln
      exact List.mem_cons_self _ _
    | cons y t =>
      rw [List.getLast?_cons_cons] at hc
      by_cases hx : x = '\n'
      · subst hx
        rw [splitLines_cons_nl] at hln
        obtain ⟨b, bs, hb⟩ := splitLines_dest (y :: t)
        rw [getLast?_cons_of_ne [] (splitLines (y :: t))
          (splitLines_ne_nil _)] at hln
        exact ih hc ln hln
      · obtain ⟨b, bs, hb⟩ := splitLines_dest (y :: t)
        rw [splitLines_cons_ne x (y :: t) hx b bs hb] at hln
        cases bs with
        | nil =>
          simp only [List.getLast?_singleton, Option.some.injEq] at hln
          subst hln
          exact List.mem_cons_of_mem _ (ih hc b (by rw [hb]; rfl))
        | cons b2 bs2 =>
          rw [getLast?_cons_of_ne (x :: b) (b2 :: bs2) (by simp)] at hln
          have := ih hc ln ?_
          · exact this
          · rw [hb, getLast?_cons_of_ne b (b2 :: bs2) (by simp)]
            exact hln

/-! ## Trim lemmas -/

/-- Right-trimming yields a prefix. -/
theorem trimRight_isPre (l : List Char) : trimRight l <+: l := by
  induction l with
  | nil => exact List.prefix_refl []
  | cons c rest ih =>
    simp only [trimRight]
    cases htr : trimRight rest with
    | nil =>
      show (if isJsWs c then ([] : List Char) else [c]) <+: c :: rest
      split
      · exact List.nil_prefix
      · exact List.cons_prefix_cons.2 ⟨rfl, List.nil_prefix⟩
    | cons r rs =>
      show (c :: r :: rs) <+: c :: rest
      refine List.cons_prefix_cons.2 ⟨rfl, ?_⟩
      rw [← htr]
      exact ih

/-- The last character of a right-trimmed string is not whitespace. -/
theorem trimRight_last (l : List Char) :
    ∀ c, (trimRight l).getLast? = some c → isJsWs c = false := by
  induction l with
  | nil => intro c h; simp [trimRight] at h
  | cons x rest ih =>
    intro c h
    simp only [trimRight] at h
    cases htr : trimRight rest with
    | nil =>
      rw [htr] at h
      have h2 : (if isJsWs x then ([] : List Char) else [x]).getLast? =
          some c := h
      by_cases hx : isJsWs x
      · rw [if_pos hx] at h2
        simp at h2
      · rw [if_neg hx] at h2
        simp only [List.getLast?_singleton, Option.some.injEq] at h2
        subst h2
        simpa using hx
    | cons r rs =>
      rw [htr] at h
      have h2 : (x :: r :: rs).getLast? = some c := h
      rw [getLast?_cons_of_ne x (r :: rs) (by simp)] at h2
      exact ih c (by rw [htr]; exact h2)

/-- Right-trimming is the identity when the last character is not
whitespace. -/
theorem trimRight_eq_self (l : List Char)
    (h : ∀ c, l.getLast? = some c → isJsWs c = false) : trimRight l = l := by
  induction l with
  | nil => rfl
  | cons x rest ih =>
    simp only [trimRight]
    cases rest with
    | nil =>
      have hx := h x (by simp)
      simp only [trimRight]
      rw [if_neg (by simp [hx])]
    | cons y t =>
      have hrec : trimRight (y :: t) = y :: t :=
        ih (fun c hc => h c (by
          rw [getLast?_cons_of_ne x (y :: t) (by simp)]
          exact hc))
      rw [hrec]

/-- Right-trimming is idempotent. -/
theorem trimRight_idem (l : List Char) :
    trimRight (trimRight l) = trimRight l :=
  trimRight_eq_self _ (trimRight_last l)

/-- `dropWhile` is the identity when the head fails the predicate. -/
theorem dropWhile_eq_self_head (p : Char → Bool) (l : List Char)
    (h : ∀ c, l.head? = some c → p c = false) : l.dropWhile p = l := by
  cases l with
  | nil => rfl
  | cons x rest =>
    rw [List.dropWhile_cons, h x rfl]
    simp

/-- Nonempty prefixes share the head. -/
theorem isPre_head? {α : Type} (l₁ l₂ : List α) (h : l₁ <+: l₂)
    (hne : l₁ ≠ []) : l₁.head? = l₂.head? := by
  obtain ⟨t, rfl⟩ := h
  cases l₁ with
  | nil => exact absurd rfl hne
  | cons x xs => rfl

/-- Trimming removes no inner characters. -/
theorem mem_jsTrim (l : List Char) (c : Char) (h : c ∈ jsTrim l) : c ∈ l :=
  (dropWhile_isSuf isJsWs l).subset ((trimRight_isPre _).subset h)

/-- `trim` is idempotent. -/
theorem jsTrim_idem (l : List Char) : jsTrim (jsTrim l) = jsTrim l := by
  unfold jsTrim
  have h1 : (trimRight (l.dropWhile isJsWs)).dropWhile isJsWs =
      trimRight (l.dropWhile isJsWs) := by
    refine dropWhile_eq_self_head _ _ ?_
    intro c hc
    have hne : trimRight (l.dropWhile isJsWs) ≠ [] := by
      intro he
      rw [he] at hc
      simp at hc
    rw [isPre_head? _ _ (trimRight_isPre (l.dropWhile isJsWs)) hne] at hc
    exact dropWhile_head_not isJsWs l c hc
  rw [h1, trimRight_idem]

/-- Trimming preserves triple-freeness. -/
theorem hasTriple_jsTrim (l : List Char) (h : hasTriple l = false) :
    hasTriple (jsTrim l) = false := by
  unfold jsTrim
  exact hasTriple_of_isPre _ _ (trimRight_isPre _)
    (hasTriple_of_isSuf _ _ (dropWhile_isSuf isJsWs l) h)

/-- A non-whitespace character is none of space, tab, newline. -/
theorem not_jsWs_facts (c : Char) (h : isJsWs c = false) :
    c ≠ ' ' ∧ c ≠ '\t' ∧ c ≠ '\n' := by
  refine ⟨?_, ?_, ?_⟩ <;> intro heq <;> subst heq <;>
    exact absurd h (by decide)

/-- Left-trimming preserves acceptable lines. -/
theorem linesOk_dropWhile (l : List Char) (h : linesOk l) :
    linesOk (l.dropWhile isJsWs) := by
  intro ln hln
  obtain ⟨a, as, ha⟩ := splitLines_dest (l.dropWhile isJsWs)
  rw [ha] at hln
  rcases List.mem_cons.1 hln with rfl | h2
  · cases hd : l.dropWhile isJsWs with
    | nil =>
      rw [hd] at ha
      simp only [splitLines, List.cons.injEq] at ha
      exact Or.inl ha.1.symm
    | cons x rest =>
      have hx : isJsWs x = false :=
        dropWhile_head_not isJsWs l x (by rw [hd]; rfl)
      have hxne : x ≠ '\n' := (not_jsWs_facts x hx).2.2
      obtain ⟨b, bs, hb⟩ := splitLines_dest rest
      rw [hd, splitLines_cons_ne x rest hxne b bs hb] at ha
      injection ha with ha1 ha2
      rw [← ha1]
      refine Or.inr ⟨x, List.mem_cons_self _ _, ?_⟩
      intro hor
      rcases hor with h3 | h3
      · exact (not_jsWs_facts x hx).1 h3
      · exact (not_jsWs_facts x hx).2.1 h3
  · have := suffix_tail_lines l (l.dropWhile isJsWs)
      (dropWhile_isSuf isJsWs l) ln (by rw [ha]; exact h2)
    exact h ln (List.mem_of_mem_tail this)

/-- Right-trimming preserves acceptable lines. -/
theorem linesOk_trimRight (l : List Char) (h : linesOk l) :
    linesOk (trimRight l) := by
  intro ln hln
  cases htr : trimRight l with
  | nil =>
    rw [htr] at hln
    simp only [splitLines, List.mem_singleton] at hln
    exact Or.inl hln
  | cons x rest =>
    obtain ⟨c, hc⟩ := getLast?_some (x :: rest) (by simp)
    have hws : isJsWs c = false := trimRight_last l c (by rw [htr]; exact hc)
    have hcn : c ≠ '\n' := (not_jsWs_facts c hws).2.2
    have hcst : ¬(c = ' ' ∨ c = '\t') := by
      intro hor
      rcases hor with h3 | h3
      · exact (not_jsWs_facts c hws).1 h3
      · exact (not_jsWs_facts c hws).2.1 h3
    have hpre : (x :: rest) <+: l := htr ▸ trimRight_isPre l
    rw [htr] at hln
    obtain ⟨a, as, ha⟩ := splitLines_dest (x :: rest)
    rw [ha] at hln
    rcases List.mem_cons.1 hln with rfl | h2
    · cases has : as with
      | nil =>
        have hcl : c ∈ ln := by
          refine lastChar_mem_lastLine (x :: rest) c hc hcn ln ?_
          rw [ha, has]
          rfl
        exact Or.inr ⟨c, hcl, hcst⟩
      | cons a2 as2 =>
        have hlen : 2 ≤ (splitLines (x :: rest)).length := by
          rw [ha, has]; simp
        have hh := prefix_lines_head l (x :: rest) hpre hlen
        rw [ha] at hh
        obtain ⟨b, bs, hb⟩ := splitLines_dest l
        rw [hb] at hh
        simp only [List.head?_cons, Option.some.injEq] at hh
        rw [hh]
        exact h b (by rw [hb]; exact List.mem_cons_self _ _)
    · have := prefix_tail_lines l (x :: rest) hpre ln (by rw [ha]; exact h2)
      rcases this with hgl | htl
      · exact Or.inr ⟨c, lastChar_mem_lastLine (x :: rest) c hc hcn ln hgl,
          hcst⟩
      · exact h ln (List.mem_of_mem_tail htl)

/-- Trimming preserves acceptable lines. -/
theorem linesOk_jsTrim (l : List Char) (h : linesOk l) :
    linesOk (jsTrim l) :=
  linesOk_trimRight _ (linesOk_dropWhile l h)

/-! ## Character-containment lemmas for the early stages -/

/-- Scan output characters come from the input or the replacement. -/
theorem mem_scanReplaceF (m : List Char → Option Nat) (rep : List Char) :
    ∀ fuel l c, c ∈ scanReplaceF m rep fuel l → c ∈ l ∨ c ∈ rep := by
  intro fuel
  induction fuel with
  | zero =>
    intro l c h
    cases l with
    | nil => exact absurd h (List.not_mem_nil c)
    | cons x rest => exact Or.inl h
  | succ fuel ih =>
    intro l c h
    cases l with
    | nil => exact absurd h (List.not_mem_nil c)
    | cons x rest =>
      simp only [scanReplaceF] at h
      cases hm : m (x :: rest) with
      | some n =>
        rw [hm] at h
        rcases List.mem_append.1 h with h1 | h2
        · exact Or.inr h1
        · rcases ih _ c h2 with h3 | h3
          · exact Or.inl (List.mem_cons_of_mem _
              ((List.drop_suffix _ _).subset h3))
          · exact Or.inr h3
      | none =>
        rw [hm] at h
        rcases List.mem_cons.1 h with rfl | h2
        · exact Or.inl (List.mem_cons_self _ _)
        · rcases ih rest c h2 with h3 | h3
          · exact Or.inl (List.mem_cons_of_mem _ h3)
          · exact Or.inr h3

/-- Wrapper of `mem_scanReplaceF`. -/
theorem mem_scanReplace (m : List Char → Option Nat) (rep l : List Char)
    (c : Char) (h : c ∈ scanReplace m rep l) : c ∈ l ∨ c ∈ rep :=
  mem_scanReplaceF m rep l.length l c h

/-- Literal-replacement output characters come from the input or the
replacement. -/
theorem mem_replaceLitF (pat rep : List Char) :
    ∀ fuel l c, c ∈ replaceLitF pat rep fuel l → c ∈ l ∨ c ∈ rep := by
  intro fuel
  induction fuel with
  | zero =>
    intro l c h
    cases l with
    | nil => exact absurd h (List.not_mem_nil c)
    | cons x rest => exact Or.inl h
  | succ fuel ih =>
    intro l c h
    cases l with
    | nil => exact absurd h (List.not_mem_nil c)
    | cons x rest =>
      simp only [replaceLitF] at h
      by_cases hp : pat.isPrefixOf (x :: rest) ∧ pat ≠ []
      · rw [if_pos hp] at h
        rcases List.mem_append.1 h with h1 | h2
        · exact Or.inr h1
        · rcases ih _ c h2 with h3 | h3
          · exact Or.inl (List.mem_cons_of_mem _
              ((List.drop_suffix _ _).subset h3))
          · exact Or.inr h3
      · rw [if_neg hp] at h
        rcases List.mem_cons.1 h with rfl | h2
        · exact Or.inl (List.mem_cons_self _ _)
        · rcases ih rest c h2 with h3 | h3
          · exact Or.inl (List.mem_cons_of_mem _ h3)
          · exact Or.inr h3

/-- Wrapper of `mem_replaceLitF`. -/
theorem mem_replaceLit (pat rep l : List Char) (c : Char)
    (h : c ∈ replaceLit pat rep l) : c ∈ l ∨ c ∈ rep :=
  mem_replaceLitF pat rep l.length l c h

/-- Entity-pass output characters come from the input or some replacement. -/
theorem mem_entity_fold :
    ∀ (rules : List (List Char × List Char)) (l : List Char) (c : Char),
      c ∈ rules.foldl (fun s pr => replaceLit pr.1 pr.2 s) l →
      c ∈ l ∨ ∃ pr ∈ rules, c ∈ pr.2 := by
  intro rules
  induction rules with
  | nil => intro l c h; exact Or.inl h
  | cons pr rest ih =>
    intro l c h
    rw [List.foldl_cons] at h
    rcases ih _ c h with h1 | ⟨q, hq, hcq⟩
    · rcases mem_replaceLit pr.1 pr.2 l c h1 with h2 | h2
      · exact Or.inl h2
      · exact Or.inr ⟨pr, by simp, h2⟩
    · exact Or.inr ⟨q, by simp [hq], hcq⟩

/-- Line-ending-normalized output characters come from the input or are
newlines. -/
theorem mem_normNewlines : ∀ (l : List Char) (c : Char),
    c ∈ normNewlines l → c ∈ l ∨ c = '\n' := by
  intro l
  induction l using normNewlines.induct with
  | case1 => intro c h; exact absurd h (List.not_mem_nil c)
  | case2 rest ih =>
    intro c h
    simp only [normNewlines] at h
    rcases List.mem_cons.1 h with rfl | h2
    · exact Or.inr rfl
    · rcases ih c h2 with h3 | h3
      · exact Or.inl (by simp [h3])
      · exact Or.inr h3
  | case3 rest hne ih =>
    intro c h
    simp only [normNewlines] at h
    rcases List.mem_cons.1 h with rfl | h2
    · exact Or.inr rfl
    · rcases ih c h2 with h3 | h3
      · exact Or.inl (List.mem_cons_of_mem _ h3)
      · exact Or.inr h3
  | case4 c0 rest hne1 hne2 ih =>
    intro c h
    simp only [normNewlines] at h
    rcases List.mem_cons.1 h with rfl | h2
    · exact Or.inl (List.mem_cons_self _ _)
    · rcases ih c h2 with h3 | h3
      · exact Or.inl (List.mem_cons_of_mem _ h3)
      · exact Or.inr h3

/-- Line-ending normalization removes every carriage return. -/
theorem normNewlines_no_cr (l : List Char) : '\r' ∉ normNewlines l := by
  induction l using normNewlines.induct with
  | case1 => decide
  | case2 rest ih =>
    simp only [normNewlines]
    intro h
    rcases List.mem_cons.1 h with h1 | h1
    · exact absurd h1 (by decide)
    · exact ih h1
  | case3 rest hne ih =>
    simp only [normNewlines]
    intro h
    rcases List.mem_cons.1 h with h1 | h1
    · exact absurd h1 (by decide)
    · exact ih h1
  | case4 c0 rest hne1 hne2 ih =>
    simp only [normNewlines]
    intro h
    rcases List.mem_cons.1 h with h1 | h1
    · exact hne2 h1.symm
    · exact ih h1

/-- Invisible-character replacement outputs input characters or spaces. -/
theorem mem_invisRule (l : List Char) (c : Char) (h : c ∈ invisRule l) :
    c ∈ l ∨ c = ' ' := by
  unfold invisRule at h
  rcases List.mem_map.1 h with ⟨d, hd, heq⟩
  by_cases hi : isInvis d
  · rw [if_pos hi] at heq
    exact Or.inr heq.symm
  · rw [if_neg hi] at heq
    exact Or.inl (heq ▸ hd)

/-- No invisible character survives the invisible-character pass. -/
theorem invisRule_no_invis (l : List Char) :
    ∀ c, isInvis c = true → c ∉ invisRule l := by
  intro c hc hmem
  rcases List.mem_map.1 hmem with ⟨d, hd, heq⟩
  by_cases hi : isInvis d
  · rw [if_pos hi] at heq
    rw [← heq] at hc
    exact absurd hc (by decide)
  · rw [if_neg hi] at heq
    rw [heq] at hi
    exact hi hc

/-- The invisible-character pass is the identity when none occurs. -/
theorem invisRule_eq_self (l : List Char)
    (h : ∀ c ∈ l, isInvis c = false) : invisRule l = l := by
  unfold invisRule
  have hm : l.map (fun c => if isInvis c then ' ' else c) = l.map id :=
    List.map_congr_left (fun a ha => by rw [h a ha]; simp)
  rw [hm, List.map_id]

/-- A literal replacement whose pattern head does not occur is the
identity. -/
theorem replaceLit_eq_self_head (pat rep l : List Char) (ch : Char)
    (hh : pat.head? = some ch) (h : ch ∉ l) : replaceLit pat rep l = l := by
  refine replaceLit_eq_self pat rep l ?_
  rintro s hs ⟨hpre, -⟩
  cases pat with
  | nil => simp at hh
  | cons p0 ps =>
    simp only [List.head?_cons, Option.some.injEq] at hh
    subst hh
    cases s with
    | nil => simp [List.isPrefixOf] at hpre
    | cons y ys =>
      simp only [List.isPrefixOf, Bool.and_eq_true, beq_iff_eq] at hpre
      exact h (hpre.1 ▸ hs.subset (List.mem_cons_self _ _))

/-- The entity pass is the identity on ampersand-free strings. -/
theorem applyEntities_eq_self_no_amp (l : List Char) (h : '&' ∉ l) :
    applyEntities l = l := by
  unfold applyEntities
  refine entity_fold_eq_self entityRules l ?_
  intro pr hpr
  have hhead : pr.1.head? = some '&' := by
    simp only [entityRules, List.mem_cons, List.not_mem_nil, or_false] at hpr
    rcases hpr with h1|h1|h1|h1|h1|h1|h1|h1|h1|h1|h1|h1 <;> subst h1 <;> decide
  exact replaceLit_eq_self_head pr.1 pr.2 l '&' hhead h

/-- No carriage return survives the early stages. -/
theorem preStages_no_cr (l : List Char) : '\r' ∉ preStages l := by
  unfold preStages
  intro h
  have hreps : ∀ pr ∈ entityRules, '\r' ∉ pr.2 := by decide
  rcases mem_invisRule _ _ h with h | h
  swap
  · exact absurd h (by decide)
  rcases mem_scanReplace numM [] _ _ h with h | h
  swap
  · exact absurd h (List.not_mem_nil _)
  rcases mem_entity_fold entityRules _ _ h with h | ⟨pr, hpr, hc⟩
  swap
  · exact hreps pr hpr hc
  rcases mem_scanReplace tagM [] _ _ h with h | h
  swap
  · exact absurd h (List.not_mem_nil _)
  rcases mem_scanReplace blockM ['\n'] _ _ h with h | h
  swap
  · exact absurd h (by decide)
  rcases mem_scanReplace ppM ['\n'] _ _ h with h | h
  swap
  · exact absurd h (by decide)
  rcases mem_scanReplace brM ['\n'] _ _ h with h | h
  swap
  · exact absurd h (by decide)
  rcases mem_scanReplace styleM [] _ _ h with h | h
  swap
  · exact absurd h (List.not_mem_nil _)
  exact normNewlines_no_cr l h

/-- No invisible character survives the early stages. -/
theorem preStages_no_invis (l : List Char) :
    ∀ c, isInvis c = true → c ∉ preStages l := by
  intro c hc
  unfold preStages
  exact invisRule_no_invis _ c hc

/-- Wrapper of `collapseNlF_eq_self`. -/
theorem collapseNl_eq_self (l : List Char) (h : hasTriple l = false) :
    collapseNl l = l :=
  collapseNlF_eq_self l.length l h

/-- Wrapper of `mem_collapseNlF`. -/
theorem mem_collapseNl (l : List Char) (c : Char) (h : c ∈ collapseNl l) :
    c ∈ l :=
  mem_collapseNlF l.length l c h

/-- The pipeline output has no carriage return. -/
theorem htmlPipeline_no_cr (l : List Char) : '\r' ∉ htmlPipeline l := by
  unfold htmlPipeline
  intro h
  rcases mem_blankLines _ _ (mem_collapseNl _ _ (mem_jsTrim _ _ h)) with h1 | h1
  · exact preStages_no_cr l h1
  · exact absurd h1 (by decide)

/-- The pipeline output has no invisible characters. -/
theorem htmlPipeline_no_invis (l : List Char) :
    ∀ c, isInvis c = true → c ∉ htmlPipeline l := by
  unfold htmlPipeline
  intro c hc h
  rcases mem_blankLines _ _ (mem_collapseNl _ _ (mem_jsTrim _ _ h)) with h1 | h1
  · exact preStages_no_invis l c hc h1
  · rw [h1] at hc
    exact absurd hc (by decide)

/-- The pipeline output has only acceptable lines. -/
theorem htmlPipeline_linesOk (l : List Char) : linesOk (htmlPipeline l) :=
  linesOk_jsTrim _ (linesOk_collapseNl _ (blankLines_linesOk _))

/-- The pipeline output is triple-newline-free. -/
theorem htmlPipeline_noTriple (l : List Char) :
    hasTriple (htmlPipeline l) = false :=
  hasTriple_jsTrim _ (collapseNlF_noTriple _ _ (Nat.le_refl _))

/-- The pipeline output is already trimmed. -/
theorem htmlPipeline_trimmed (l : List Char) :
    jsTrim (htmlPipeline l) = htmlPipeline l := by
  unfold htmlPipeline
  exact jsTrim_idem _

/-- Every stage of the pipeline fixes a string satisfying the residual
properties of pipeline output, provided it contains no `&` and no `<`. -/
theorem htmlPipeline_fixed (y : List Char)
    (hr : '\r' ∉ y) (hlt : '<' ∉ y) (hamp : '&' ∉ y)
    (hinv : ∀ c, isInvis c = true → c ∉ y)
    (hlines : linesOk y) (htrip : hasTriple y = false)
    (htrim : jsTrim y = y) :
    htmlPipeline y = y := by
  unfold htmlPipeline preStages
  rw [normNewlines_eq_self y hr,
    scanReplace_eq_self_of_not_mem styleM [] '<' styleM_head_none y hlt,
    scanReplace_eq_self_of_not_mem brM ['\n'] '<' brM_head_none y hlt,
    scanReplace_eq_self_of_not_mem ppM ['\n'] '<' ppM_head_none y hlt,
    scanReplace_eq_self_of_not_mem blockM ['\n'] '<' blockM_head_none y hlt,
    scanReplace_eq_self_of_not_mem tagM [] '<' tagM_head_none y hlt,
    applyEntities_eq_self_no_amp y hamp,
    scanReplace_eq_self_of_not_mem numM [] '&' numM_head_none y hamp,
    invisRule_eq_self y (fun c hc => by
      by_contra hcc
      rw [Bool.not_eq_false] at hcc
      exact hinv c hcc hc),
    blankLines_eq_self y hlines,
    collapseNl_eq_self y htrip,
    htrim]

/-- Unpacking a packed character list gives it back. -/
theorem data_mk (l : List Char) : (String.mk l).data = l := rfl

/-! ## Claim C5 (amended) -/

/-- C5 (amended): the normalizer is idempotent on every input whose
normalized output contains no ampersand and no angle-bracket character;
re-decoding of entity or tag text produced by the first pass is the only
source of non-idempotence (see the counterexample). -/
theorem c5_conditional_idempotence (s : String)
    (hamp : '&' ∉ (htmlToText s).data) (hlt : '<' ∉ (htmlToText s).data) :
    htmlToText (htmlToText s) = htmlToText s := by
  have hd : (htmlToText s).data = htmlPipeline s.data := by
    unfold htmlToText
    exact data_mk _
  rw [hd] at hamp hlt
  have hfix : htmlPipeline (htmlPipeline s.data) = htmlPipeline s.data :=
    htmlPipeline_fixed (htmlPipeline s.data)
      (htmlPipeline_no_cr s.data) hlt hamp
      (htmlPipeline_no_invis s.data)
      (htmlPipeline_linesOk s.data)
      (htmlPipeline_noTriple s.data)
      (htmlPipeline_trimmed s.data)
  show String.mk (htmlPipeline (htmlToText s).data) = htmlToText s
  rw [hd, hfix]
  unfold htmlToText
  exact rfl

/-- Concrete run of the amended C5: tag-stripping output without `&`/`<` is
a fixed point of the normalizer. -/
theorem c5_idempotence_witness :
    '&' ∉ (htmlToText "<p>Hello world</p>").data ∧
    '<' ∉ (htmlToText "<p>Hello world</p>").data ∧
    htmlToText (htmlToText "<p>Hello world</p>") =
      htmlToText "<p>Hello world</p>" :=
  ⟨by decide, by decide,
   c5_conditional_idempotence "<p>Hello world</p>" (by decide) (by decide)⟩

end Itx
